import Mathlib

/-!
Verification of the img-to-3mf geometry engine against its specification.

The definitions below are a shallow embedding of the TypeScript sources
`src/utils/3mfGenerator.ts`, `src/lib/contourMesh.ts` and
`src/lib/marchingCubes.ts`.  JavaScript numbers are embedded as `ℚ`
(all operations exercised by the claims are exact on the inputs involved),
`Float32Array`/`number[]` become `List ℚ`, JS objects become structures,
and the in-place mutation of bitmaps and vertex maps becomes functional
state passing.  Loops whose termination is data dependent (the greedy
rectangle extraction `while (true)` loop and the two breadth-first
searches) are written with an explicit fuel parameter; the call sites
instantiate the fuel with the bound `width*height + 1`, which is proved
sufficient where a theorem depends on the loop running to completion.
-/

namespace ImgTo3mf

/-- A rectangle with half-open bounds, mirroring the record
`{x1, y1, x2, y2, area}` built by `findLargestRectangleFrom`. -/
structure Rect where
  x1 : ℕ
  y1 : ℕ
  x2 : ℕ
  y2 : ℕ
  area : ℕ
deriving DecidableEq, Repr

/-- The set of grid cells `(x, y)` covered by a rectangle (half-open bounds). -/
def rectCells (r : Rect) : Finset (ℕ × ℕ) :=
  Finset.Ico r.x1 r.x2 ×ˢ Finset.Ico r.y1 r.y2

/-- Embedding of the row scan `for (x = start; x < limit && bitmap[y][x]; x++)`:
length of the run of set cells in row `y` starting at `x`, for at most
`steps` cells.  The caller passes `steps` as the remaining room to the
scan limit. -/
def rowRun (bm : ℕ → ℕ → Bool) (y : ℕ) : ℕ → ℕ → ℕ
  | 0, _ => 0
  | steps + 1, x => if bm y x then rowRun bm y steps (x + 1) + 1 else 0

/-- Embedding of the downward-extension loop of `findLargestRectangleFrom`:
starting from row `y` with usable width `cw` and current best rectangle
`best`, repeatedly measure the usable width of the next row (capped by
`cw` and by the grid width), shrink `cw`, and keep the larger-area
rectangle.  `fuel` is the number of rows still below `y` plus one;
the JS loop condition is `y < height && currentWidth > 0`. -/
def extendDown (bm : ℕ → ℕ → Bool) (w h startX startY : ℕ) :
    ℕ → ℕ → ℕ → Rect → Rect
  | 0, _, _, best => best
  | fuel + 1, y, cw, best =>
    if y < h ∧ 0 < cw then
      let rw := rowRun bm y (min cw (w - startX)) startX
      if rw = 0 then best
      else
        let cw2 := min cw rw
        let area := cw2 * (y - startY + 1)
        let best2 := if best.area < area then
          ⟨startX, startY, startX + cw2, y + 1, area⟩ else best
        extendDown bm w h startX startY fuel (y + 1) cw2 best2
    else best

/-- Embedding of `findLargestRectangleFrom(bitmap, startX, startY, width, height)`:
`none` when the start cell is clear, otherwise the best rectangle found
by extending right in the start row and then downward with shrinking width. -/
def findLargestRectangleFrom (bm : ℕ → ℕ → Bool) (startX startY w h : ℕ) :
    Option Rect :=
  if bm startY startX = false then none
  else
    let maxW := rowRun bm startY (w - startX) startX
    some (extendDown bm w h startX startY (h - startY) startY maxW
      ⟨startX, startY, startX + 1, startY + 1, 1⟩)

/-- The cells of a `width × height` grid in the row-major order
`for (y ...) for (x ...)` used by every scan in the generator;
entries are `(y, x)` pairs. -/
def rowMajor (w h : ℕ) : List (ℕ × ℕ) :=
  (List.range h).flatMap fun y => (List.range w).map fun x => (y, x)

/-- One step of the candidate scan in `decomposeComponentIntoRectangles`:
skip clear cells, and keep a candidate only when its area is strictly
larger than the best so far (`rect.area > bestRect.area`), so ties keep
the earlier candidate. -/
def scanStep (bm : ℕ → ℕ → Bool) (w h : ℕ) (best : Option Rect)
    (c : ℕ × ℕ) : Option Rect :=
  if bm c.1 c.2 then
    match findLargestRectangleFrom bm c.2 c.1 w h with
    | some r =>
      match best with
      | none => some r
      | some b => if b.area < r.area then some r else some b
    | none => best
  else best

/-- The full scan over all still-set cells that chooses the winning
rectangle of one greedy round. -/
def bestOfScan (bm : ℕ → ℕ → Bool) (w h : ℕ) : Option Rect :=
  (rowMajor w h).foldl (scanStep bm w h) none

/-- Clearing the cells of a claimed rectangle
(`for (y = y1; y < y2; ...) for (x = x1; x < x2; ...) bitmap[y][x] = false`). -/
def clearRect (r : Rect) (bm : ℕ → ℕ → Bool) : ℕ → ℕ → Bool :=
  fun y x => if r.x1 ≤ x ∧ x < r.x2 ∧ r.y1 ≤ y ∧ y < r.y2 then false else bm y x

/-- The greedy `while (true)` loop of `decomposeComponentIntoRectangles`,
with fuel: scan for the best rectangle, stop when none is found,
otherwise claim it and repeat. -/
def greedyExtract (w h : ℕ) : ℕ → (ℕ → ℕ → Bool) → List Rect
  | 0, _ => []
  | fuel + 1, bm =>
    match bestOfScan bm w h with
    | none => []
    | some r => r :: greedyExtract w h fuel (clearRect r bm)

/-- The bitmap built from a component's pixel list
(`bitmap[pixel.y][pixel.x] = true`). -/
def componentBitmap (comp : List (ℕ × ℕ)) : ℕ → ℕ → Bool :=
  fun y x => comp.any fun p => p.1 = x ∧ p.2 = y

/-- Embedding of `decomposeComponentIntoRectangles(component, width, height)`.
The fuel `w*h + 1` dominates the number of set cells, which is proved to
bound the number of greedy rounds. -/
def decomposeComponentIntoRectangles (comp : List (ℕ × ℕ)) (w h : ℕ) :
    List Rect :=
  if comp.isEmpty then []
  else greedyExtract w h (w * h + 1) (componentBitmap comp)

/-- The set cells of a bitmap inside the `w × h` grid. -/
def setCells (bm : ℕ → ℕ → Bool) (w h : ℕ) : Finset (ℕ × ℕ) :=
  (Finset.range w ×ˢ Finset.range h).filter fun c => bm c.2 c.1

/-- Mark a cell as visited (`visited[y][x] = true`), functionally. -/
def setVisited (vis : ℕ → ℕ → Bool) (x y : ℕ) : ℕ → ℕ → Bool :=
  fun y2 x2 => if y2 = y ∧ x2 = x then true else vis y2 x2

/-- Embedding of the breadth-first flood fill inside `mergeAdjacentVoxels`.
The queue is a FIFO list of `(x, y)` cells; cells are marked visited when
enqueued.  Neighbour candidates are generated over `ℤ`, mirroring the JS
bounds check `n.x >= 0 && n.x < width && n.y >= 0 && n.y < height`.
Each loop iteration removes one queue entry and every enqueue marks a
previously unvisited cell, so `w*h + 1` fuel always suffices. -/
def bfsStep (colorMap : ℕ → ℕ → ℤ) (target : ℤ) (w h : ℕ) :
    ℕ → List (ℕ × ℕ) → (ℕ → ℕ → Bool) → List (ℕ × ℕ) →
    List (ℕ × ℕ) × (ℕ → ℕ → Bool)
  | 0, _, vis, comp => (comp, vis)
  | _ + 1, [], vis, comp => (comp, vis)
  | fuel + 1, p :: rest, vis, comp =>
    let nbrs : List (ℤ × ℤ) :=
      [((p.1 : ℤ) - 1, (p.2 : ℤ)), ((p.1 : ℤ) + 1, (p.2 : ℤ)),
       ((p.1 : ℤ), (p.2 : ℤ) - 1), ((p.1 : ℤ), (p.2 : ℤ) + 1)]
    let st := nbrs.foldl (fun (st : List (ℕ × ℕ) × (ℕ → ℕ → Bool)) n =>
      if 0 ≤ n.1 ∧ n.1 < (w : ℤ) ∧ 0 ≤ n.2 ∧ n.2 < (h : ℤ) ∧
          st.2 n.2.toNat n.1.toNat = false ∧
          colorMap n.2.toNat n.1.toNat = target then
        (st.1 ++ [(n.1.toNat, n.2.toNat)], setVisited st.2 n.1.toNat n.2.toNat)
      else st) (rest, vis)
    bfsStep colorMap target w h fuel st.1 st.2 (comp ++ [p])

/-- Embedding of `mergeAdjacentVoxels(colorMap, targetColor, width, height)`:
row-major scan, flood fill of each unvisited matching cell into a
connected component, then greedy rectangular decomposition of each
component.  The JS code collects all components first and then
decomposes them; since decomposition is pure this yields the same list. -/
def mergeAdjacentVoxels (colorMap : ℕ → ℕ → ℤ) (target : ℤ) (w h : ℕ) :
    List Rect :=
  ((rowMajor w h).foldl (fun (st : (ℕ → ℕ → Bool) × List Rect) c =>
    if st.1 c.1 c.2 = false ∧ colorMap c.1 c.2 = target then
      let r := bfsStep colorMap target w h (w * h + 1) [(c.2, c.1)]
        (setVisited st.1 c.2 c.1) []
      (r.2, st.2 ++ decomposeComponentIntoRectangles r.1 w h)
    else st) ((fun _ _ => false), [])).2

/-- A point in millimetres, the `Vertex {x, y, z}` record. -/
abbrev Vec3 : Type := ℚ × ℚ × ℚ

/-- The quantisation behind the vertex key
`` `${x.toFixed(6)},${y.toFixed(6)},${z.toFixed(6)}` ``: `toFixed(6)`
selects the integer `n` minimising `|n / 10^6 - x|`, taking the larger
`n` on ties, i.e. `⌊x·10^6 + 1/2⌋`. -/
def qkey (x : ℚ) : ℤ :=
  (x * 1000000 + 1 / 2).floor

/-- The key of a coordinate triple. -/
def qkey3 (x y z : ℚ) : ℤ × ℤ × ℤ :=
  (qkey x, qkey y, qkey z)

/-- The triangle record `{v1, v2, v3, colorIndex}`. -/
structure Tri where
  v1 : ℕ
  v2 : ℕ
  v3 : ℕ
  colorIndex : ℕ
deriving DecidableEq, Repr

/-- The per-colour mesh construction state: the `localVertices` array,
the `vertexMap` (an association list from quantised keys to indices) and
the `localTriangles` array. -/
structure Builder where
  verts : List Vec3
  keys : List ((ℤ × ℤ × ℤ) × ℕ)
  tris : List Tri
deriving DecidableEq

/-- The empty builder state created at the start of each colour. -/
def emptyBuilder : Builder := ⟨[], [], []⟩

/-- Embedding of the closure `getOrCreateVertex(x, y, z)`: return the
index stored under the quantised key, or append a fresh vertex and
record its index. -/
def getOrCreateVertex (s : Builder) (x y z : ℚ) : ℕ × Builder :=
  match s.keys.lookup (qkey3 x y z) with
  | some i => (i, s)
  | none =>
    (s.verts.length,
     ⟨s.verts ++ [(x, y, z)], s.keys ++ [(qkey3 x y z, s.verts.length)], s.tris⟩)

/-- The 12-triangle box template of `addVoxelManifold`
(2 triangles per face, 6 faces, fixed winding). -/
def boxTemplate (v0 v1 v2 v3 v4 v5 v6 v7 colorIndex : ℕ) : List Tri :=
  [⟨v0, v1, v5, colorIndex⟩, ⟨v0, v5, v4, colorIndex⟩,
   ⟨v2, v3, v7, colorIndex⟩, ⟨v2, v7, v6, colorIndex⟩,
   ⟨v3, v0, v4, colorIndex⟩, ⟨v3, v4, v7, colorIndex⟩,
   ⟨v1, v2, v6, colorIndex⟩, ⟨v1, v6, v5, colorIndex⟩,
   ⟨v4, v5, v6, colorIndex⟩, ⟨v4, v6, v7, colorIndex⟩,
   ⟨v3, v2, v1, colorIndex⟩, ⟨v3, v1, v0, colorIndex⟩]

/-- Sequentially push a list of coordinate triples through
`getOrCreateVertex`, returning the resolved indices in order together
with the final builder state (the straight-line sequence of
`getOrCreateVertex(...)` calls of the two voxel adders). -/
def pushVerts (s : Builder) : List Vec3 → List ℕ × Builder
  | [] => ([], s)
  | c :: cs =>
    let r := getOrCreateVertex s c.1 c.2.1 c.2.2
    let rest := pushVerts r.2 cs
    (r.1 :: rest.1, rest.2)

/-- The 8 corner coordinates of `addVoxelManifold`, in source order
(`v0` … `v7`), after the `showOnFront` swap of `y1`/`y2`. -/
def boxCorners (x1 y1 z1 x2 y2 z2 : ℚ) (showOnFront : Bool) : List Vec3 :=
  let yFront := if showOnFront then y1 else y2
  let yBack := if showOnFront then y2 else y1
  [(x1, yFront, z1), (x2, yFront, z1), (x2, yBack, z1), (x1, yBack, z1),
   (x1, yFront, z2), (x2, yFront, z2), (x2, yBack, z2), (x1, yBack, z2)]

/-- Embedding of `addVoxelManifold`: fetch or create the 8 box corners
through the shared vertex map, then append the 12-triangle template. -/
def addVoxelManifold (s : Builder) (x1 y1 z1 x2 y2 z2 : ℚ)
    (colorIndex : ℕ) (showOnFront : Bool) : Builder :=
  let r := pushVerts s (boxCorners x1 y1 z1 x2 y2 z2 showOnFront)
  let v := r.1
  let ts := boxTemplate (v.getD 0 0) (v.getD 1 0) (v.getD 2 0) (v.getD 3 0)
    (v.getD 4 0) (v.getD 5 0) (v.getD 6 0) (v.getD 7 0) colorIndex
  { r.2 with tris := r.2.tris ++ ts }

/-- The 36-triangle template of `addSmoothedVoxelManifold`
(10 bottom, 10 top, 16 side triangles). -/
def smoothedTemplate (v0 v1 v2 v3 v4 v5 v6 v7 v8 v9 v10 v11 v12 v13 v14 v15
    colorIndex : ℕ) : List Tri :=
  [⟨v0, v1, v2, colorIndex⟩, ⟨v0, v2, v7, colorIndex⟩,
   ⟨v2, v3, v7, colorIndex⟩, ⟨v3, v6, v7, colorIndex⟩,
   ⟨v3, v4, v6, colorIndex⟩, ⟨v4, v5, v6, colorIndex⟩,
   ⟨v5, v6, v0, colorIndex⟩, ⟨v5, v0, v1, colorIndex⟩,
   ⟨v1, v4, v2, colorIndex⟩, ⟨v2, v4, v3, colorIndex⟩,
   ⟨v8, v10, v9, colorIndex⟩, ⟨v8, v15, v10, colorIndex⟩,
   ⟨v10, v15, v11, colorIndex⟩, ⟨v11, v15, v14, colorIndex⟩,
   ⟨v11, v14, v12, colorIndex⟩, ⟨v12, v14, v13, colorIndex⟩,
   ⟨v13, v14, v8, colorIndex⟩, ⟨v13, v8, v9, colorIndex⟩,
   ⟨v9, v10, v12, colorIndex⟩, ⟨v10, v11, v12, colorIndex⟩,
   ⟨v0, v8, v9, colorIndex⟩, ⟨v0, v9, v1, colorIndex⟩,
   ⟨v1, v9, v10, colorIndex⟩, ⟨v1, v10, v2, colorIndex⟩,
   ⟨v2, v10, v11, colorIndex⟩, ⟨v2, v11, v3, colorIndex⟩,
   ⟨v3, v11, v12, colorIndex⟩, ⟨v3, v12, v4, colorIndex⟩,
   ⟨v4, v12, v13, colorIndex⟩, ⟨v4, v13, v5, colorIndex⟩,
   ⟨v5, v13, v14, colorIndex⟩, ⟨v5, v14, v6, colorIndex⟩,
   ⟨v6, v14, v15, colorIndex⟩, ⟨v6, v15, v7, colorIndex⟩,
   ⟨v7, v15, v8, colorIndex⟩, ⟨v7, v8, v0, colorIndex⟩]

/-- The 16 corner coordinates of `addSmoothedVoxelManifold`, in source
order (`v0` … `v15`): the bottom chamfered octagon then the top one,
with bevel `0.15 * min(x2-x1, y2-y1)`. -/
def smoothedCorners (x1 y1 z1 x2 y2 z2 : ℚ) (showOnFront : Bool) : List Vec3 :=
  let bevelSize := min (x2 - x1) (y2 - y1) * (15 / 100)
  let yFront := if showOnFront then y1 else y2
  let yBack := if showOnFront then y2 else y1
  [(x1 + bevelSize, yFront, z1), (x2 - bevelSize, yFront, z1),
   (x2, yFront + bevelSize, z1), (x2, yBack - bevelSize, z1),
   (x2 - bevelSize, yBack, z1), (x1 + bevelSize, yBack, z1),
   (x1, yBack - bevelSize, z1), (x1, yFront + bevelSize, z1),
   (x1 + bevelSize, yFront, z2), (x2 - bevelSize, yFront, z2),
   (x2, yFront + bevelSize, z2), (x2, yBack - bevelSize, z2),
   (x2 - bevelSize, yBack, z2), (x1 + bevelSize, yBack, z2),
   (x1, yBack - bevelSize, z2), (x1, yFront + bevelSize, z2)]

/-- Embedding of `addSmoothedVoxelManifold`: a 16-vertex chamfered prism
whose XY corners are beveled by `0.15 * min(x2-x1, y2-y1)`, with the
36-triangle template above. -/
def addSmoothedVoxelManifold (s : Builder) (x1 y1 z1 x2 y2 z2 : ℚ)
    (colorIndex : ℕ) (showOnFront : Bool) : Builder :=
  let r := pushVerts s (smoothedCorners x1 y1 z1 x2 y2 z2 showOnFront)
  let v := r.1
  let ts := smoothedTemplate (v.getD 0 0) (v.getD 1 0) (v.getD 2 0)
    (v.getD 3 0) (v.getD 4 0) (v.getD 5 0) (v.getD 6 0) (v.getD 7 0)
    (v.getD 8 0) (v.getD 9 0) (v.getD 10 0) (v.getD 11 0) (v.getD 12 0)
    (v.getD 13 0) (v.getD 14 0) (v.getD 15 0) colorIndex
  { r.2 with tris := r.2.tris ++ ts }

/-- The configuration fields of `generate3DModel` that drive the
geometry stage, the classified grid (`colorMap`, with `-1` for
transparent pixels) having been computed from the image upstream. -/
structure GeomConfig where
  widthMM : ℚ
  colorHeights : List ℚ
  numColors : ℕ
  imgW : ℕ
  imgH : ℕ
  showOnFront : Bool
  useSmoothing : Bool

/-- `depth = width / (imgWidth / imgHeight)`. -/
def depthMM (cfg : GeomConfig) : ℚ :=
  cfg.widthMM / ((cfg.imgW : ℚ) / (cfg.imgH : ℚ))

/-- `offsetX = 125 - width / 2` (the model is centred at x = 125). -/
def offsetX (cfg : GeomConfig) : ℚ := 125 - cfg.widthMM / 2

/-- `offsetY = 125 - depth / 2` (the model is centred at y = 125). -/
def offsetY (cfg : GeomConfig) : ℚ := 125 - depthMM cfg / 2

/-- The loop body of the per-colour geometry loop of `generate3DModel`:
scale one merged rectangle to millimetres, shift it by the bed-centring
offset, and extrude it into a (possibly smoothed) manifold box between
`baseZ = 0` and `topZ = colorHeights[colorIndex]`. -/
def buildRegionStep (cfg : GeomConfig) (colorIndex : ℕ) (s : Builder)
    (r : Rect) : Builder :=
  let layerHeight := cfg.colorHeights.getD colorIndex 0
  let baseZ : ℚ := 0
  let topZ := layerHeight
  let shouldSmooth := cfg.useSmoothing ∧ (100 ≤ cfg.imgW ∨ 100 ≤ cfg.imgH)
  let px := (r.x1 : ℚ) / (cfg.imgW : ℚ) * cfg.widthMM + offsetX cfg
  let py := (r.y1 : ℚ) / (cfg.imgH : ℚ) * depthMM cfg + offsetY cfg
  let pxNext := (r.x2 : ℚ) / (cfg.imgW : ℚ) * cfg.widthMM + offsetX cfg
  let pyNext := (r.y2 : ℚ) / (cfg.imgH : ℚ) * depthMM cfg + offsetY cfg
  if shouldSmooth then
    addSmoothedVoxelManifold s px py baseZ pxNext pyNext topZ colorIndex
      cfg.showOnFront
  else
    addVoxelManifold s px py baseZ pxNext pyNext topZ colorIndex
      cfg.showOnFront

/-- Embedding of the per-colour geometry loop of `generate3DModel`:
merge the colour's voxels into rectangles, then extrude each rectangle
through `buildRegionStep`, accumulating into one fresh builder per
colour. -/
def buildColorMesh (colorMap : ℕ → ℕ → ℤ) (cfg : GeomConfig)
    (colorIndex : ℕ) : Builder :=
  let regions := mergeAdjacentVoxels colorMap (colorIndex : ℤ) cfg.imgW cfg.imgH
  regions.foldl (buildRegionStep cfg colorIndex) emptyBuilder

/-- The placement property of claim C5 for one vertex of colour
`colorIndex`: its z is either 0 or the colour's layer height, and (in
the non-smoothed path) its XY position is a scaled grid corner plus the
bed-centring offset. -/
def VertexPlaced (cfg : GeomConfig) (colorIndex : ℕ) (v : Vec3) : Prop :=
  (v.2.2 = 0 ∨ v.2.2 = cfg.colorHeights.getD colorIndex 0) ∧
  (cfg.useSmoothing = false → ∃ gx gy : ℕ, gx ≤ cfg.imgW ∧ gy ≤ cfg.imgH ∧
    v.1 = (gx : ℚ) / (cfg.imgW : ℚ) * cfg.widthMM + offsetX cfg ∧
    v.2.1 = (gy : ℚ) / (cfg.imgH : ℚ) * depthMM cfg + offsetY cfg)

/-- One entry of the `objectsData` array. -/
structure ObjectData where
  colorIndex : ℕ
  mesh : Builder
deriving DecidableEq

/-- `objectsData`: one entry per colour whose mesh has at least one
vertex (`if (localVertices.length > 0)`). -/
def objectsData (colorMap : ℕ → ℕ → ℤ) (cfg : GeomConfig) : List ObjectData :=
  (List.range cfg.numColors).filterMap fun ci =>
    let m := buildColorMesh colorMap cfg ci
    if 0 < m.verts.length then some ⟨ci, m⟩ else none

/-- The structural content of one serialized `<object>` element. -/
structure XmlObject where
  id : ℕ
  typ : String
  pid : ℕ
  pindex : ℕ
  verts : List Vec3
  tris : List Tri

/-- The `<object>` elements emitted by the serializer:
`id = idx + 2` (id 1 is reserved for `basematerials`), `type="model"`,
`pid="1"`, `pindex = colorIndex`. -/
def xmlObjects (ods : List ObjectData) : List XmlObject :=
  ods.enum.map fun p => ⟨p.1 + 2, "model", 1, p.2.colorIndex,
    p.2.mesh.verts, p.2.mesh.tris⟩

/-- The `objectid` values of the `<item>` elements of the `<build>`
section, one per object. -/
def buildItems (ods : List ObjectData) : List ℕ :=
  ods.enum.map fun p => p.1 + 2

/-- The three undirected edges of a triangle, each normalised as an
ordered pair of vertex indices. -/
def triEdges (t : Tri) : List (ℕ × ℕ) :=
  [(min t.v1 t.v2, max t.v1 t.v2),
   (min t.v2 t.v3, max t.v2 t.v3),
   (min t.v3 t.v1, max t.v3 t.v1)]

/-- Number of incidences of the undirected edge `e` among the edges of a
triangle list. -/
def edgeIncidence (tris : List Tri) (e : ℕ × ℕ) : ℕ :=
  (tris.flatMap triEdges).count e

/-- The manifold check as a Boolean: every undirected edge formed from a
triangle's three edges is incident to exactly 2 triangles. -/
def manifoldB (tris : List Tri) : Bool :=
  (tris.flatMap triEdges).all fun e => edgeIncidence tris e = 2

/-- The manifold property as a proposition. -/
def IsManifold (tris : List Tri) : Prop :=
  ∀ e ∈ tris.flatMap triEdges, edgeIncidence tris e = 2

/-! Embedding of `src/lib/contourMesh.ts`.  The binary mask
`mask[y*width + x]` becomes a function `ℕ → ℕ → Bool` of `(x, y)`. -/

/-- A `Point2D {x, y}` value. -/
abbrev Point : Type := ℚ × ℚ

/-- A traced contour: an ordered point loop plus the (unused) hole flag. -/
structure Contour where
  points : List Point
  isHole : Bool
deriving DecidableEq

/-- Embedding of `getPixel(mask, width, height, x, y)` with its bounds
check; coordinates are `ℤ` because callers probe `x - 1` etc. -/
def getPixel (m : ℕ → ℕ → Bool) (w h : ℕ) (x y : ℤ) : ℕ :=
  if 0 ≤ x ∧ x < (w : ℤ) ∧ 0 ≤ y ∧ y < (h : ℤ) then
    (if m x.toNat y.toNat then 1 else 0)
  else 0

/-- The breadth-first loop of `floodFill`, with fuel (one unit per
dequeue; every enqueue marks a fresh cell, so `w*h + 1` suffices).
Neighbour order is right, left, down, up, as in the source. -/
def floodFillStep (m : ℕ → ℕ → Bool) (w h : ℕ) :
    ℕ → List (ℕ × ℕ) → (ℕ → ℕ → Bool) → List (ℕ × ℕ) →
    List (ℕ × ℕ) × (ℕ → ℕ → Bool)
  | 0, _, vis, px => (px, vis)
  | _ + 1, [], vis, px => (px, vis)
  | fuel + 1, p :: rest, vis, px =>
    let nbrs : List (ℤ × ℤ) :=
      [((p.1 : ℤ) + 1, (p.2 : ℤ)), ((p.1 : ℤ) - 1, (p.2 : ℤ)),
       ((p.1 : ℤ), (p.2 : ℤ) + 1), ((p.1 : ℤ), (p.2 : ℤ) - 1)]
    let st := nbrs.foldl (fun (st : List (ℕ × ℕ) × (ℕ → ℕ → Bool)) n =>
      if 0 ≤ n.1 ∧ n.1 < (w : ℤ) ∧ 0 ≤ n.2 ∧ n.2 < (h : ℤ) ∧
          m n.1.toNat n.2.toNat = true ∧ st.2 n.1.toNat n.2.toNat = false then
        (st.1 ++ [(n.1.toNat, n.2.toNat)], setVisited st.2 n.1.toNat n.2.toNat)
      else st) (rest, vis)
    floodFillStep m w h fuel st.1 st.2 (px ++ [p])

/-- Embedding of `floodFill(mask, visited, width, height, startX, startY)`:
the start cell is marked visited, then the queue is drained. -/
def floodFill (m : ℕ → ℕ → Bool) (vis : ℕ → ℕ → Bool) (w h sx sy : ℕ) :
    List (ℕ × ℕ) × (ℕ → ℕ → Bool) :=
  floodFillStep m w h (w * h + 1) [(sx, sy)] (setVisited vis sx sy) []

/-- The four 4-neighbour direction vectors `dx = [1,0,-1,0]`,
`dy = [0,1,0,-1]`. -/
def fourDirs : List (ℤ × ℤ) := [(1, 0), (0, 1), (-1, 0), (0, -1)]

/-- The cross-product comparison that realises the `atan2`-based
comparator of `sortBoundaryPoints` exactly: points are compared first by
which half-plane around the centroid they lie in (the four atan2 value
classes `(-π,0)`, `{0}`, `(0,π)`, `{π}` in increasing order), then
within an open half-plane by the sign of the 2D cross product, which
orders angles exactly when their difference is below π. -/
def angClass (dx dy : ℚ) : ℕ :=
  if dy < 0 then 0
  else if dy = 0 ∧ 0 ≤ dx then 1
  else if 0 < dy then 2
  else 3

/-- The `≤` comparator on angles around the centroid `(cx, cy)`. -/
def angLe (cx cy : ℚ) (a b : Point) : Bool :=
  let da := (a.1 - cx, a.2 - cy)
  let db := (b.1 - cx, b.2 - cy)
  if angClass da.1 da.2 < angClass db.1 db.2 then true
  else if angClass db.1 db.2 < angClass da.1 da.2 then false
  else if angClass da.1 da.2 = 0 ∨ angClass da.1 da.2 = 2 then
    decide (0 ≤ da.1 * db.2 - da.2 * db.1)
  else true

/-- Embedding of `sortBoundaryPoints`: stable sort by angle from the
centroid (JS `Array.prototype.sort` is stable, as is `mergeSort`). -/
def sortBoundaryPoints (points : List Point) : List Point :=
  if points.length < 3 then points
  else
    let cx := (points.foldl (fun a p => a + p.1) (0 : ℚ)) / (points.length : ℚ)
    let cy := (points.foldl (fun a p => a + p.2) (0 : ℚ)) / (points.length : ℚ)
    points.mergeSort (angLe cx cy)

/-- Embedding of `simplifyContour`: drop every point whose neighbours
are colinear with it within the cross-product tolerance `0.01`; keep the
original list when fewer than 3 points survive. -/
def simplifyContour (points : List Point) : List Point :=
  if points.length < 3 then points
  else
    let n := points.length
    let simplified := (List.range n).filterMap fun i =>
      let prev := points.getD ((i + n - 1) % n) (0, 0)
      let curr := points.getD i (0, 0)
      let next := points.getD ((i + 1) % n) (0, 0)
      let cross := (curr.1 - prev.1) * (next.2 - curr.2) -
        (curr.2 - prev.2) * (next.1 - curr.1)
      if 1 / 100 < |cross| then some curr else none
    if 3 ≤ simplified.length then simplified else points

/-- Embedding of `mooreNeighborTracing`: collect the boundary pixels,
classify each of their corners by the fill count of its 2×2 pixel
neighbourhood, then order the corner set by angle and simplify. -/
def mooreNeighborTracing (m : ℕ → ℕ → Bool) (w h : ℕ)
    (pixels : List (ℕ × ℕ)) : List Point :=
  let boundary := pixels.filter fun p =>
    fourDirs.any fun d =>
      getPixel m w h ((p.1 : ℤ) + d.1) ((p.2 : ℤ) + d.2) = 0
  let boundary2 := if boundary.isEmpty then pixels else boundary
  let collected := boundary2.foldl
    (fun (st : List (ℕ × ℕ) × List (ℕ × ℕ)) p =>
      let corners := [(p.1, p.2), (p.1 + 1, p.2),
        (p.1 + 1, p.2 + 1), (p.1, p.2 + 1)]
      corners.foldl (fun st c =>
        if c ∈ st.1 then st
        else
          let adj := [getPixel m w h ((c.1 : ℤ) - 1) ((c.2 : ℤ) - 1),
            getPixel m w h (c.1 : ℤ) ((c.2 : ℤ) - 1),
            getPixel m w h ((c.1 : ℤ) - 1) (c.2 : ℤ),
            getPixel m w h (c.1 : ℤ) (c.2 : ℤ)]
          let filledCount := (adj.filter fun v => v = 1).length
          if 0 < filledCount ∧ filledCount < 4 then
            (st.1 ++ [c], st.2 ++ [c])
          else (st.1 ++ [c], st.2)) st) ([], [])
  let vertices := collected.2
  let vertices2 := if vertices.length < 3 then
    vertices ++ boundary2.flatMap (fun p =>
      [(p.1, p.2), (p.1 + 1, p.2), (p.1 + 1, p.2 + 1), (p.1, p.2 + 1)])
    else vertices
  let pts : List Point := vertices2.map fun c => ((c.1 : ℚ), (c.2 : ℚ))
  let sorted := sortBoundaryPoints pts
  let simplified := simplifyContour sorted
  if 3 ≤ simplified.length then simplified else sorted

/-- Embedding of `traceMarchingSquaresContour`: components of fewer than
4 pixels (and failed traces) fall back to the bounding-box rectangle.
The JS `Infinity` fold initialisers are realised by folding from the
first pixel; the function is only ever called on non-empty `pixels`. -/
def traceMarchingSquaresContour (m : ℕ → ℕ → Bool) (w h : ℕ)
    (pixels : List (ℕ × ℕ)) : Contour :=
  let p0 := pixels.headD (0, 0)
  let minX := pixels.foldl (fun a p => min a p.1) p0.1
  let minY := pixels.foldl (fun a p => min a p.2) p0.2
  let maxX := pixels.foldl (fun a p => max a p.1) p0.1
  let maxY := pixels.foldl (fun a p => max a p.2) p0.2
  let bbox : List Point :=
    [((minX : ℚ), (minY : ℚ)), (((maxX : ℚ) + 1), (minY : ℚ)),
     (((maxX : ℚ) + 1), ((maxY : ℚ) + 1)), ((minX : ℚ), ((maxY : ℚ) + 1))]
  if pixels.length < 4 then ⟨bbox, false⟩
  else
    let contourPoints := mooreNeighborTracing m w h pixels
    if contourPoints.length < 3 then ⟨bbox, false⟩
    else ⟨contourPoints, false⟩

/-- Embedding of `extractContours`: row-major scan, flood fill each
unvisited set pixel, trace the component's contour, and keep contours of
at least 3 points. -/
def extractContours (m : ℕ → ℕ → Bool) (w h : ℕ) : List Contour :=
  ((rowMajor w h).foldl (fun (st : (ℕ → ℕ → Bool) × List Contour) c =>
    if m c.2 c.1 = true ∧ st.1 c.2 c.1 = false then
      let r := floodFill m st.1 w h c.2 c.1
      if r.1.isEmpty then (r.2, st.2)
      else
        let contour := traceMarchingSquaresContour m w h r.1
        if 3 ≤ contour.points.length then (r.2, st.2 ++ [contour])
        else (r.2, st.2)
    else st) ((fun _ _ => false), [])).2

/-- Embedding of the contour version of `pointInTriangle` (the
sign-based test with no epsilon). -/
def pointInTriangle (p a b c : Point) : Bool :=
  let s1 := (p.1 - c.1) * (a.2 - c.2) - (a.1 - c.1) * (p.2 - c.2)
  let s2 := (p.1 - a.1) * (b.2 - a.2) - (b.1 - a.1) * (p.2 - a.2)
  let s3 := (p.1 - b.1) * (c.2 - b.2) - (c.1 - b.1) * (p.2 - b.2)
  let hasNeg := s1 < 0 ∨ s2 < 0 ∨ s3 < 0
  let hasPos := 0 < s1 ∨ 0 < s2 ∨ 0 < s3
  !(decide hasNeg && decide hasPos)

/-- Embedding of `isEar(points, remaining, prevIdx, currIdx, nextIdx)`:
the corner must be convex (`cross > 0`) and no other remaining vertex
may lie inside the candidate triangle. -/
def isEar (points : List Point) (remaining : List ℕ)
    (prevIdx currIdx nextIdx : ℕ) : Bool :=
  let prev := points.getD prevIdx (0, 0)
  let curr := points.getD currIdx (0, 0)
  let next := points.getD nextIdx (0, 0)
  let cross := (curr.1 - prev.1) * (next.2 - prev.2) -
    (curr.2 - prev.2) * (next.1 - prev.1)
  if cross ≤ 0 then false
  else remaining.all fun idx =>
    idx = prevIdx ∨ idx = currIdx ∨ idx = nextIdx ∨
      pointInTriangle (points.getD idx (0, 0)) prev curr next = false

/-- The ear search of one `while` iteration: the first position `i`
(cyclic neighbours `(i-1+len)%len` and `(i+1)%len`) whose vertex is an
ear. -/
def findEar (points : List Point) (remaining : List ℕ) : Option ℕ :=
  let len := remaining.length
  (List.range len).find? fun i =>
    isEar points remaining (remaining.getD ((i + len - 1) % len) 0)
      (remaining.getD i 0) (remaining.getD ((i + 1) % len) 0)

/-- Fan triangulation over the remaining vertex list, the fallback of
`triangulatePolygon`: `indices.push(remaining[0], remaining[i],
remaining[i+1])` for `1 ≤ i < len - 1`, written with `i = j + 1` so the
loop counter ranges over `0 ≤ j < len - 2`. -/
def fanIndices (remaining : List ℕ) : List ℕ :=
  (List.range (remaining.length - 2)).flatMap fun j =>
    [remaining.getD 0 0, remaining.getD (j + 1) 0, remaining.getD (j + 2) 0]

/-- The `while (remaining.length > 3)` loop of `triangulatePolygon`:
clip the first ear found, or fall back to fan triangulation and stop.
One fuel unit is spent per clipped ear, so `points.length` fuel always
suffices. -/
def earLoop (points : List Point) : ℕ → List ℕ → List ℕ → List ℕ
  | 0, _, acc => acc
  | fuel + 1, remaining, acc =>
    if 3 < remaining.length then
      match findEar points remaining with
      | some i =>
        let len := remaining.length
        let prev := remaining.getD ((i + len - 1) % len) 0
        let curr := remaining.getD i 0
        let next := remaining.getD ((i + 1) % len) 0
        earLoop points fuel (remaining.eraseIdx i) (acc ++ [prev, curr, next])
      | none => acc ++ fanIndices remaining
    else if remaining.length = 3 then
      acc ++ [remaining.getD 0 0, remaining.getD 1 0, remaining.getD 2 0]
    else acc

/-- Embedding of `triangulatePolygon(points)`: special cases for fewer
than 5 points, ear clipping with fan fallback otherwise. -/
def triangulatePolygon (points : List Point) : List ℕ :=
  let n := points.length
  if n < 3 then []
  else if n = 3 then [0, 1, 2]
  else if n = 4 then [0, 1, 2, 0, 2, 3]
  else earLoop points n (List.range n) []

/-- The mesh record of `contourMesh.ts`: flat coordinate, normal and
index arrays. -/
structure CMesh where
  vertices : List ℚ
  normals : List ℚ
  indices : List ℕ
deriving DecidableEq

/-- Split a flat index list into consecutive triples (the
`for (i = 0; i < length; i += 3)` iteration pattern). -/
def chunks3 : List ℕ → List (ℕ × ℕ × ℕ)
  | a :: b :: c :: rest => (a, b, c) :: chunks3 rest
  | _ => []

/-- Embedding of `generateMeshFromContours(mask, width, height,
thickness, voxelSize)`: for each contour, duplicate its points at
`z = 0` and `z = thickness`, triangulate the faces (front with reversed
winding), and stitch the sides with two triangles per contour edge. -/
def generateMeshFromContours (m : ℕ → ℕ → Bool) (w h : ℕ)
    (thickness voxelSize : ℚ) : CMesh :=
  let contours := extractContours m w h
  contours.foldl (fun msh contour =>
    let baseIdx := msh.vertices.length / 3
    let n := contour.points.length
    let frontV := contour.points.flatMap fun p =>
      [p.1 * voxelSize, p.2 * voxelSize, 0]
    let frontN := contour.points.flatMap fun _ => [(0 : ℚ), 0, -1]
    let backV := contour.points.flatMap fun p =>
      [p.1 * voxelSize, p.2 * voxelSize, thickness]
    let backN := contour.points.flatMap fun _ => [(0 : ℚ), 0, 1]
    let faceIndices := triangulatePolygon contour.points
    let front := (chunks3 faceIndices).flatMap fun t =>
      [baseIdx + t.1, baseIdx + t.2.2, baseIdx + t.2.1]
    let back := (chunks3 faceIndices).flatMap fun t =>
      [baseIdx + n + t.1, baseIdx + n + t.2.1, baseIdx + n + t.2.2]
    let sides := (List.range n).flatMap fun i =>
      let next := (i + 1) % n
      [baseIdx + i, baseIdx + next, baseIdx + n + next,
       baseIdx + i, baseIdx + n + next, baseIdx + n + i]
    { vertices := msh.vertices ++ frontV ++ backV,
      normals := msh.normals ++ frontN ++ backN,
      indices := msh.indices ++ front ++ back ++ sides })
    ⟨[], [], []⟩

/-- The coordinate triple of vertex `i` in a flat-array mesh. -/
def coordsOf (msh : CMesh) (i : ℕ) : ℚ × ℚ × ℚ :=
  (msh.vertices.getD (3 * i) 0, msh.vertices.getD (3 * i + 1) 0,
   msh.vertices.getD (3 * i + 2) 0)

/-! Embedding of the edge interpolation of `src/lib/marchingCubes.ts`. -/

/-- The `Vector3` record of `marchingCubes.ts`. -/
structure Vector3 where
  x : ℚ
  y : ℚ
  z : ℚ
deriving DecidableEq

/-- Embedding of `interpolateVertex(v1, v2, val1, val2, isoValue)`:
three epsilon guards (`0.00001`) in source order, then linear
interpolation of the crossing position. -/
def interpolateVertex (v1 v2 : Vector3) (val1 val2 isoValue : ℚ) : Vector3 :=
  if |isoValue - val1| < 1 / 100000 then v1
  else if |isoValue - val2| < 1 / 100000 then v2
  else if |val1 - val2| < 1 / 100000 then v1
  else
    let t := (isoValue - val1) / (val2 - val1)
    ⟨v1.x + t * (v2.x - v1.x), v1.y + t * (v2.y - v1.y),
     v1.z + t * (v2.z - v1.z)⟩

/-! Concrete test fixtures used to evaluate the embedded pipeline. -/

/-- A 2×2 classified grid holding an L-shaped region of colour 0:
cells `(0,0)`, `(0,1)` and `(1,1)` (as `(x, y)`), other pixels
transparent. -/
def cmL : ℕ → ℕ → ℤ := fun y x =>
  if (y = 0 ∧ x = 0) ∨ (y = 1 ∧ x = 0) ∨ (y = 1 ∧ x = 1) then 0 else -1

/-- A configuration for the L-grid: 2 mm wide, one colour of height
1 mm, no smoothing, front display. -/
def cfgL : GeomConfig := ⟨2, [1], 1, 2, 2, true, false⟩

/-- A 2×2 binary mask whose set pixels `(0,0)` and `(1,1)` touch only
diagonally, so they form two 4-connected components whose contours share
the corner point `(1,1)`. -/
def mDiag : ℕ → ℕ → Bool := fun x y => (x = 0 ∧ y = 0) ∨ (x = 1 ∧ y = 1)

/-! Specification-side auxiliary definitions. -/

/-- A well-formed candidate rectangle over a bitmap: non-degenerate,
inside the `w × h` grid, with a consistent `area` field, and with all of
its cells currently set. -/
def RectGood (bm : ℕ → ℕ → Bool) (w h : ℕ) (r : Rect) : Prop :=
  r.x1 < r.x2 ∧ r.x2 ≤ w ∧ r.y1 < r.y2 ∧ r.y2 ≤ h ∧
  r.area = (r.x2 - r.x1) * (r.y2 - r.y1) ∧
  ∀ c ∈ rectCells r, bm c.2 c.1 = true

/-- The candidate rectangles of one greedy round, in the row-major order
in which `decomposeComponentIntoRectangles` scans the still-set cells. -/
def candList (bm : ℕ → ℕ → Bool) (w h : ℕ) : List Rect :=
  (rowMajor w h).filterMap fun c =>
    if bm c.1 c.2 then findLargestRectangleFrom bm c.2 c.1 w h else none

/-- The union of the cell sets of a list of rectangles. -/
def rectUnion (rs : List Rect) : Finset (ℕ × ℕ) :=
  rs.foldr (fun r acc => rectCells r ∪ acc) ∅

/-- The accumulator step of the candidate comparison
(`if (rect && (!bestRect || rect.area > bestRect.area)) bestRect = rect`):
a candidate replaces the best only when its area is strictly larger, so
equal-area ties keep the earlier candidate. -/
def keepMax (best : Option Rect) (r : Rect) : Option Rect :=
  match best with
  | none => some r
  | some b => if b.area < r.area then some r else some b

/-! ### Lemmas about the vertex-deduplication map -/

theorem lookup_eq_none_of_forall {l : List ((ℤ × ℤ × ℤ) × ℕ)}
    {k : ℤ × ℤ × ℤ} (h : ∀ p ∈ l, p.1 ≠ k) : l.lookup k = none := by
  induction l with
  | nil => rfl
  | cons p t ih =>
    obtain ⟨a, b⟩ := p
    have hp : (k == a) = false := by
      simp only [beq_eq_false_iff_ne, ne_eq]
      exact fun he => h (a, b) (List.mem_cons_self _ _) (by simp [he])
    simp only [List.lookup, hp]
    exact ih fun q hq => h q (List.mem_cons_of_mem _ hq)

theorem lookup_append_last {l : List ((ℤ × ℤ × ℤ) × ℕ)} {k : ℤ × ℤ × ℤ}
    {i : ℕ} (h : l.lookup k = none) : (l ++ [(k, i)]).lookup k = some i := by
  induction l with
  | nil => simp [List.lookup]
  | cons p t ih =>
    obtain ⟨a, b⟩ := p
    simp only [List.cons_append, List.lookup] at h ⊢
    cases hk : k == a
    · simp only [hk] at h ⊢
      exact ih h
    · simp only [hk] at h
      exact absurd h (by simp)

theorem getOrCreateVertex_tris (s : Builder) (x y z : ℚ) :
    (getOrCreateVertex s x y z).2.tris = s.tris := by
  unfold getOrCreateVertex
  cases s.keys.lookup (qkey3 x y z) <;> rfl

theorem getOrCreateVertex_verts (s : Builder) (x y z : ℚ) :
    ∃ t, (getOrCreateVertex s x y z).2.verts = s.verts ++ t ∧
      t.length ≤ 1 ∧ ∀ v ∈ t, v = (x, y, z) := by
  unfold getOrCreateVertex
  cases s.keys.lookup (qkey3 x y z) with
  | none => exact ⟨[(x, y, z)], rfl, by simp, by simp⟩
  | some i => exact ⟨[], by simp, by simp, by simp⟩

theorem pushVerts_tris (cs : List Vec3) (s : Builder) :
    (pushVerts s cs).2.tris = s.tris := by
  induction cs generalizing s with
  | nil => rfl
  | cons c t ih =>
    show (pushVerts (getOrCreateVertex s c.1 c.2.1 c.2.2).2 t).2.tris = s.tris
    rw [ih, getOrCreateVertex_tris]

theorem pushVerts_verts (cs : List Vec3) (s : Builder) :
    ∃ t, (pushVerts s cs).2.verts = s.verts ++ t ∧ t.length ≤ cs.length ∧
      ∀ v ∈ t, v ∈ cs := by
  induction cs generalizing s with
  | nil => exact ⟨[], by simp [pushVerts], by simp, by simp⟩
  | cons c t ih =>
    obtain ⟨t1, h1, h1l, h1v⟩ := getOrCreateVertex_verts s c.1 c.2.1 c.2.2
    obtain ⟨t2, h2, h2l, h2v⟩ := ih (getOrCreateVertex s c.1 c.2.1 c.2.2).2
    refine ⟨t1 ++ t2, ?_, ?_, ?_⟩
    · show (pushVerts (getOrCreateVertex s c.1 c.2.1 c.2.2).2 t).2.verts = _
      rw [h2, h1, List.append_assoc]
    · simp only [List.length_append, List.length_cons]
      omega
    · intro v hv
      rcases List.mem_append.mp hv with hv1 | hv2
      · have := h1v v hv1
        subst this
        exact List.mem_cons_self _ _
      · exact List.mem_cons_of_mem _ (h2v v hv2)

theorem getOrCreateVertex_fresh (s : Builder) (x y z : ℚ)
    (h : ∀ p ∈ s.keys, p.1 ≠ qkey3 x y z) :
    getOrCreateVertex s x y z =
      (s.verts.length, ⟨s.verts ++ [(x, y, z)],
        s.keys ++ [(qkey3 x y z, s.verts.length)], s.tris⟩) := by
  unfold getOrCreateVertex
  rw [lookup_eq_none_of_forall h]

/-- When every pushed coordinate has a key absent from the map and the
keys are pairwise distinct, the push creates the vertices verbatim and
assigns them consecutive indices. -/
theorem pushVerts_fresh (cs : List Vec3) (s : Builder)
    (hnew : ∀ c ∈ cs, ∀ p ∈ s.keys, p.1 ≠ qkey3 c.1 c.2.1 c.2.2)
    (hnd : (cs.map fun c => qkey3 c.1 c.2.1 c.2.2).Nodup) :
    (pushVerts s cs).1 = List.range' s.verts.length cs.length ∧
    (pushVerts s cs).2.verts = s.verts ++ cs ∧
    (pushVerts s cs).2.keys = s.keys ++
      (cs.map fun c => (qkey3 c.1 c.2.1 c.2.2)).zip
        (List.range' s.verts.length cs.length) := by
  induction cs generalizing s with
  | nil => exact ⟨rfl, by simp [pushVerts], by simp [pushVerts]⟩
  | cons c t ih =>
    have hc : getOrCreateVertex s c.1 c.2.1 c.2.2 =
        (s.verts.length, ⟨s.verts ++ [(c.1, c.2.1, c.2.2)],
          s.keys ++ [(qkey3 c.1 c.2.1 c.2.2, s.verts.length)], s.tris⟩) :=
      getOrCreateVertex_fresh s c.1 c.2.1 c.2.2
        (hnew c (List.mem_cons_self _ _))
    have hnd2 : (t.map fun c2 => qkey3 c2.1 c2.2.1 c2.2.2).Nodup :=
      (List.nodup_cons.mp hnd).2
    have hknotin : qkey3 c.1 c.2.1 c.2.2 ∉
        t.map fun c2 => qkey3 c2.1 c2.2.1 c2.2.2 :=
      (List.nodup_cons.mp hnd).1
    have hnew2 : ∀ c2 ∈ t,
        ∀ p ∈ (getOrCreateVertex s c.1 c.2.1 c.2.2).2.keys,
          p.1 ≠ qkey3 c2.1 c2.2.1 c2.2.2 := by
      intro c2 hc2 p hp
      rw [hc] at hp
      rcases List.mem_append.mp hp with hp1 | hp2
      · exact hnew c2 (List.mem_cons_of_mem _ hc2) p hp1
      · have : p = (qkey3 c.1 c.2.1 c.2.2, s.verts.length) := by
          simpa using hp2
        subst this
        intro he
        exact hknotin (by
          rw [show qkey3 c.1 c.2.1 c.2.2 = qkey3 c2.1 c2.2.1 c2.2.2 from he]
          exact List.mem_map_of_mem _ hc2)
    obtain ⟨ih1, ih2, ih3⟩ := ih (getOrCreateVertex s c.1 c.2.1 c.2.2).2 hnew2 hnd2
    have hvlen : (getOrCreateVertex s c.1 c.2.1 c.2.2).2.verts.length =
        s.verts.length + 1 := by rw [hc]; simp
    refine ⟨?_, ?_, ?_⟩
    · show (getOrCreateVertex s c.1 c.2.1 c.2.2).1 ::
        (pushVerts (getOrCreateVertex s c.1 c.2.1 c.2.2).2 t).1 = _
      rw [ih1, hc]
      simp [List.range'_succ]
    · show (pushVerts (getOrCreateVertex s c.1 c.2.1 c.2.2).2 t).2.verts = _
      rw [ih2, hc]
      simp
    · show (pushVerts (getOrCreateVertex s c.1 c.2.1 c.2.2).2 t).2.keys = _
      rw [ih3, hc]
      simp [List.range'_succ]

/-- The 12-triangle box template over 8 distinct vertex indices is
edge-manifold: every undirected edge is incident to exactly 2 of its
triangles. -/
theorem boxTemplate_manifold (ci : ℕ) :
    IsManifold (boxTemplate 0 1 2 3 4 5 6 7 ci) := by
  have he : (boxTemplate 0 1 2 3 4 5 6 7 ci).flatMap triEdges
      = (boxTemplate 0 1 2 3 4 5 6 7 0).flatMap triEdges := rfl
  unfold IsManifold edgeIncidence
  rw [he]
  decide

/-! ### Claim theorems C1, C3, C6, C9 -/

/-- Claim C1, amended: each single extruded box is manifold — when a
colour's geometry consists of one rectangle's box (8 corners with
distinct quantised keys), every undirected edge of its 12-triangle mesh
is incident to exactly 2 triangles.  The property does not extend to
meshes built from several touching rectangles (see the
counterexample). -/
theorem c1_single_box_manifold (x1 y1 z1 x2 y2 z2 : ℚ) (ci : ℕ) (f : Bool)
    (hd : ((boxCorners x1 y1 z1 x2 y2 z2 f).map fun c =>
      qkey3 c.1 c.2.1 c.2.2).Nodup) :
    IsManifold (addVoxelManifold emptyBuilder x1 y1 z1 x2 y2 z2 ci f).tris := by
  obtain ⟨hi, hv, hk⟩ := pushVerts_fresh (boxCorners x1 y1 z1 x2 y2 z2 f)
    emptyBuilder (by intro c _ p hp; simp [emptyBuilder] at hp) hd
  have hlen : (boxCorners x1 y1 z1 x2 y2 z2 f).length = 8 := rfl
  have htris : (addVoxelManifold emptyBuilder x1 y1 z1 x2 y2 z2 ci f).tris
      = boxTemplate 0 1 2 3 4 5 6 7 ci := by
    simp only [addVoxelManifold]
    rw [pushVerts_tris, hi, hlen]
    rfl
  rw [htris]
  exact boxTemplate_manifold ci

theorem c1_single_box_manifold_witness :
    IsManifold (addVoxelManifold emptyBuilder 0 0 0 1 1 1 0 true).tris :=
  c1_single_box_manifold 0 0 0 1 1 1 0 true (by with_unfolding_all decide)

/-- Claim C1, counterexample: on the 2×2 L-shaped grid, the box-merge
backend decomposes the region into two touching rectangles and the
resulting per-colour mesh is not manifold — the shared vertical edge
between vertices 2 and 6 is incident to 4 triangles, not 2. -/
theorem c1_counterexample :
    manifoldB (buildColorMesh cmL cfgL 0).tris = false ∧
    edgeIncidence (buildColorMesh cmL cfgL 0).tris (2, 6) = 4 := by
  with_unfolding_all decide

/-- Claim C3, amended: within the box-merge builder, vertex identity is
by quantised coordinate key — a second `getOrCreateVertex` call whose
coordinates quantise to the same key returns the index of the first call
and leaves the builder unchanged.  (The contour backend does not
deduplicate vertices across polygons; see the counterexample.) -/
theorem c3_quantized_dedup (s : Builder) (x y z x2 y2 z2 : ℚ)
    (h : qkey3 x y z = qkey3 x2 y2 z2) :
    getOrCreateVertex (getOrCreateVertex s x y z).2 x2 y2 z2 =
      getOrCreateVertex s x y z := by
  rcases hl : s.keys.lookup (qkey3 x y z) with _ | i
  · have h1 : getOrCreateVertex s x y z =
        (s.verts.length, ⟨s.verts ++ [(x, y, z)],
          s.keys ++ [(qkey3 x y z, s.verts.length)], s.tris⟩) := by
      unfold getOrCreateVertex
      rw [hl]
    have h2 : (s.keys ++ [(qkey3 x y z, s.verts.length)]).lookup
        (qkey3 x2 y2 z2) = some s.verts.length := by
      rw [← h]
      exact lookup_append_last hl
    rw [h1]
    unfold getOrCreateVertex
    rw [show (⟨s.verts ++ [(x, y, z)],
      s.keys ++ [(qkey3 x y z, s.verts.length)], s.tris⟩ : Builder).keys =
      s.keys ++ [(qkey3 x y z, s.verts.length)] from rfl, h2]
  · have h1 : getOrCreateVertex s x y z = (i, s) := by
      unfold getOrCreateVertex
      rw [hl]
    rw [h1]
    unfold getOrCreateVertex
    rw [show (i, s).2.keys = s.keys from rfl, ← h, hl]

theorem c3_quantized_dedup_witness :
    getOrCreateVertex (getOrCreateVertex emptyBuilder 1 2 3).2
      (1 + 1 / 10000000) 2 3 = getOrCreateVertex emptyBuilder 1 2 3 :=
  c3_quantized_dedup emptyBuilder 1 2 3 (1 + 1 / 10000000) 2 3
    (by with_unfolding_all decide)

/-- Claim C3, counterexample: the contour backend resolves coincident
points from different polygons to different vertex indices.  On the
diagonal 2×2 mask, both components' contours contain the corner
`(1, 1)`; the generated mesh stores it twice, as vertex 2 and as
vertex 8, and both indices are used by triangles. -/
theorem c3_counterexample :
    coordsOf (generateMeshFromContours mDiag 2 2 1 1) 2 =
      coordsOf (generateMeshFromContours mDiag 2 2 1 1) 8 ∧
    (2 : ℕ) ≠ 8 ∧
    2 ∈ (generateMeshFromContours mDiag 2 2 1 1).indices ∧
    8 ∈ (generateMeshFromContours mDiag 2 2 1 1).indices := by
  with_unfolding_all decide

/-- Claim C6, amended: with smoothing, each merged rectangle becomes a
16-vertex chamfered prism (the 16 corners are created through the same
deduplicating vertex map, all fresh when their keys are distinct), and
the fixed template emits 36 triangles per prism — not 44, and the
octagon faces overlap, so the per-prism mesh is not manifold (see the
counterexample). -/
theorem c6_smoothed_prism (s : Builder) (x1 y1 z1 x2 y2 z2 : ℚ)
    (ci : ℕ) (f : Bool)
    (hd : ((smoothedCorners x1 y1 z1 x2 y2 z2 f).map fun c =>
      qkey3 c.1 c.2.1 c.2.2).Nodup) :
    (addSmoothedVoxelManifold s x1 y1 z1 x2 y2 z2 ci f).tris.length =
      s.tris.length + 36 ∧
    (smoothedCorners x1 y1 z1 x2 y2 z2 f).length = 16 ∧
    (addSmoothedVoxelManifold emptyBuilder x1 y1 z1 x2 y2 z2 ci f).verts =
      smoothedCorners x1 y1 z1 x2 y2 z2 f := by
  obtain ⟨hi, hv, hk⟩ := pushVerts_fresh (smoothedCorners x1 y1 z1 x2 y2 z2 f)
    emptyBuilder (by intro c _ p hp; simp [emptyBuilder] at hp) hd
  refine ⟨?_, rfl, ?_⟩
  · simp only [addSmoothedVoxelManifold]
    rw [List.length_append, pushVerts_tris]
    simp [smoothedTemplate]
  · simp only [addSmoothedVoxelManifold]
    rw [hv]
    simp [emptyBuilder]

theorem c6_smoothed_prism_witness :
    (addSmoothedVoxelManifold emptyBuilder 0 0 0 2 1 1 0 true).tris.length =
      emptyBuilder.tris.length + 36 ∧
    (smoothedCorners 0 0 0 2 1 1 true).length = 16 ∧
    (addSmoothedVoxelManifold emptyBuilder 0 0 0 2 1 1 0 true).verts =
      smoothedCorners 0 0 0 2 1 1 true :=
  c6_smoothed_prism emptyBuilder 0 0 0 2 1 1 0 true
    (by with_unfolding_all decide)

/-- Claim C6, counterexample: the smoothed prism template emits 36
triangles, not 44, and the resulting prism mesh is not manifold — edge
`(0, 1)` of the bottom octagon is incident to 3 triangles. -/
theorem c6_counterexample :
    (addSmoothedVoxelManifold emptyBuilder 0 0 0 2 1 1 0 true).tris.length
      ≠ 44 ∧
    (addSmoothedVoxelManifold emptyBuilder 0 0 0 2 1 1 0 true).tris.length
      = 36 ∧
    edgeIncidence
      (addSmoothedVoxelManifold emptyBuilder 0 0 0 2 1 1 0 true).tris (0, 1)
      = 3 ∧
    manifoldB (addSmoothedVoxelManifold emptyBuilder 0 0 0 2 1 1 0 true).tris
      = false := by
  with_unfolding_all decide

/-- Claim C9, amended: when the two corner samples are equal within the
epsilon `1e-5`, the interpolation snaps to a corner instead of dividing:
it returns the first corner unless the first corner's value is not
within epsilon of the iso-value while the second corner's is, in which
case it returns the second corner. -/
theorem c9_interp_snaps (v1 v2 : Vector3) (val1 val2 iso : ℚ)
    (h : |val1 - val2| < 1 / 100000) :
    interpolateVertex v1 v2 val1 val2 iso =
      if ¬|iso - val1| < 1 / 100000 ∧ |iso - val2| < 1 / 100000 then v2
      else v1 := by
  unfold interpolateVertex
  by_cases h1 : |iso - val1| < 1 / 100000
  · rw [if_pos h1, if_neg (fun hc => hc.1 h1)]
  · rw [if_neg h1]
    by_cases h2 : |iso - val2| < 1 / 100000
    · rw [if_pos h2, if_pos ⟨h1, h2⟩]
    · rw [if_neg h2, if_pos h, if_neg (fun hc => h2 hc.2)]

theorem c9_interp_snaps_witness :
    interpolateVertex ⟨0, 0, 0⟩ ⟨1, 0, 0⟩ (1 / 2) (1 / 2) (1 / 2) =
      (if ¬|(1 : ℚ) / 2 - 1 / 2| < 1 / 100000 ∧
          |(1 : ℚ) / 2 - 1 / 2| < 1 / 100000 then (⟨1, 0, 0⟩ : Vector3)
        else ⟨0, 0, 0⟩) :=
  c9_interp_snaps ⟨0, 0, 0⟩ ⟨1, 0, 0⟩ (1 / 2) (1 / 2) (1 / 2)
    (by norm_num)

/-! ### Greedy rectangle decomposition: correctness of one round -/

theorem mem_rectCells {r : Rect} {c : ℕ × ℕ} :
    c ∈ rectCells r ↔
      (r.x1 ≤ c.1 ∧ c.1 < r.x2) ∧ (r.y1 ≤ c.2 ∧ c.2 < r.y2) := by
  simp [rectCells, Finset.mem_product, Finset.mem_Ico]

theorem rowRun_le (bm : ℕ → ℕ → Bool) (y : ℕ) :
    ∀ steps x, rowRun bm y steps x ≤ steps := by
  intro steps
  induction steps with
  | zero => intro x; simp [rowRun]
  | succ n ih =>
    intro x
    unfold rowRun
    split
    · exact Nat.succ_le_succ (ih (x + 1))
    · exact Nat.zero_le _

theorem rowRun_set (bm : ℕ → ℕ → Bool) (y : ℕ) :
    ∀ steps x i, i < rowRun bm y steps x → bm y (x + i) = true := by
  intro steps
  induction steps with
  | zero => intro x i hi; simp [rowRun] at hi
  | succ n ih =>
    intro x i hi
    unfold rowRun at hi
    by_cases hb : bm y x
    · rw [if_pos hb] at hi
      cases i with
      | zero => simpa using hb
      | succ j =>
        have hj := ih (x + 1) j (by omega)
        have hco : x + 1 + j = x + (j + 1) := by omega
        rwa [hco] at hj
    · rw [if_neg hb] at hi
      omega

theorem extendDown_good (bm : ℕ → ℕ → Bool) (w h startX startY : ℕ) :
    ∀ fuel y cw best,
      startY ≤ y →
      (∀ y2, startY ≤ y2 → y2 < y → ∀ i, i < cw →
        bm y2 (startX + i) = true) →
      RectGood bm w h best → best.x1 = startX → best.y1 = startY →
      RectGood bm w h (extendDown bm w h startX startY fuel y cw best) ∧
      (extendDown bm w h startX startY fuel y cw best).x1 = startX ∧
      (extendDown bm w h startX startY fuel y cw best).y1 = startY := by
  intro fuel
  induction fuel with
  | zero => exact fun y cw best _ _ hg h1 h2 => ⟨hg, h1, h2⟩
  | succ n ih =>
    intro y cw best hy hrows hg h1 h2
    unfold extendDown
    split
    case isFalse => exact ⟨hg, h1, h2⟩
    case isTrue hcond =>
      by_cases hrw : rowRun bm y (min cw (w - startX)) startX = 0
      · rw [if_pos hrw]
        exact ⟨hg, h1, h2⟩
      · rw [if_neg hrw]
        have hrun := rowRun_set bm y (min cw (w - startX)) startX
        have hrle := rowRun_le bm y (min cw (w - startX)) startX
        set rw2 := rowRun bm y (min cw (w - startX)) startX with hrwdef
        have hcw2cw : min cw rw2 ≤ cw := Nat.min_le_left _ _
        have hcw2rw : min cw rw2 ≤ rw2 := Nat.min_le_right _ _
        have hcw2pos : 0 < min cw rw2 :=
          Nat.lt_min.mpr ⟨hcond.2, Nat.pos_of_ne_zero hrw⟩
        have hrows2 : ∀ y2, startY ≤ y2 → y2 < y + 1 → ∀ i,
            i < min cw rw2 → bm y2 (startX + i) = true := by
          intro y2 hy2a hy2b i hi
          by_cases hylt : y2 < y
          · exact hrows y2 hy2a hylt i (lt_of_lt_of_le hi hcw2cw)
          · have : y2 = y := by omega
            subst this
            exact hrun i (lt_of_lt_of_le hi hcw2rw)
        have hbest2 : RectGood bm w h
            (if best.area < min cw rw2 * (y - startY + 1) then
              ⟨startX, startY, startX + min cw rw2, y + 1,
                min cw rw2 * (y - startY + 1)⟩ else best) ∧
            (if best.area < min cw rw2 * (y - startY + 1) then
              ⟨startX, startY, startX + min cw rw2, y + 1,
                min cw rw2 * (y - startY + 1)⟩ else best : Rect).x1 = startX ∧
            (if best.area < min cw rw2 * (y - startY + 1) then
              ⟨startX, startY, startX + min cw rw2, y + 1,
                min cw rw2 * (y - startY + 1)⟩ else best : Rect).y1 = startY := by
          split
          case isFalse => exact ⟨hg, h1, h2⟩
          case isTrue =>
            have hxw : startX + min cw rw2 ≤ w := by
              have h5 : rw2 ≤ min cw (w - startX) := hrle
              have h6 : rw2 ≤ w - startX := le_trans h5 (Nat.min_le_right _ _)
              omega
            refine ⟨⟨?_, ?_, ?_, ?_, ?_, ?_⟩, rfl, rfl⟩
            · show startX < startX + min cw rw2
              omega
            · exact hxw
            · show startY < y + 1
              omega
            · exact hcond.1
            · show min cw rw2 * (y - startY + 1) =
                (startX + min cw rw2 - startX) * (y + 1 - startY)
              have e1 : startX + min cw rw2 - startX = min cw rw2 := by omega
              have e2 : y + 1 - startY = y - startY + 1 := by omega
              rw [e1, e2]
            · intro c hc
              rw [mem_rectCells] at hc
              obtain ⟨⟨hcx1, hcx2⟩, ⟨hcy1, hcy2⟩⟩ := hc
              have hcx1b : startX ≤ c.1 := hcx1
              have hcx2b : c.1 < startX + min cw rw2 := hcx2
              have hcy1b : startY ≤ c.2 := hcy1
              have hcy2b : c.2 < y + 1 := hcy2
              have he : c.1 = startX + (c.1 - startX) := by omega
              rw [he]
              exact hrows2 c.2 hcy1b (by omega) (c.1 - startX) (by omega)
        exact ih (y + 1) (min cw rw2) _
          (by omega) hrows2 hbest2.1 hbest2.2.1 hbest2.2.2

theorem findLargestRectangleFrom_good (bm : ℕ → ℕ → Bool) (w h x y : ℕ)
    (hb : bm y x = true) (hx : x < w) (hy : y < h) :
    ∃ r, findLargestRectangleFrom bm x y w h = some r ∧
      RectGood bm w h r ∧ r.x1 = x ∧ r.y1 = y := by
  unfold findLargestRectangleFrom
  rw [if_neg (by simp [hb])]
  refine ⟨_, rfl, ?_⟩
  apply extendDown_good bm w h x y (h - y) y _ _ (le_refl y)
    (by intro y2 _ hlt _ _; omega)
  · refine ⟨?_, ?_, ?_, ?_, ?_, ?_⟩
    · show x < x + 1
      omega
    · show x + 1 ≤ w
      omega
    · show y < y + 1
      omega
    · show y + 1 ≤ h
      omega
    · show (1 : ℕ) = (x + 1 - x) * (y + 1 - y)
      simp
    · intro c hc
      rw [mem_rectCells] at hc
      obtain ⟨⟨hcx1, hcx2⟩, ⟨hcy1, hcy2⟩⟩ := hc
      have hcx1b : x ≤ c.1 := hcx1
      have hcx2b : c.1 < x + 1 := hcx2
      have hcy1b : y ≤ c.2 := hcy1
      have hcy2b : c.2 < y + 1 := hcy2
      have h7 : c.1 = x ∧ c.2 = y := by omega
      rw [show c.2 = y from h7.2, show c.1 = x from h7.1]
      exact hb
  · rfl
  · rfl

theorem mem_rowMajor {w h : ℕ} {c : ℕ × ℕ} :
    c ∈ rowMajor w h ↔ c.1 < h ∧ c.2 < w := by
  obtain ⟨y, x⟩ := c
  simp only [rowMajor, List.mem_flatMap, List.mem_map, List.mem_range,
    Prod.mk.injEq]
  aesop

theorem mem_setCells {bm : ℕ → ℕ → Bool} {w h : ℕ} {c : ℕ × ℕ} :
    c ∈ setCells bm w h ↔ c.1 < w ∧ c.2 < h ∧ bm c.2 c.1 = true := by
  simp [setCells, Finset.mem_filter, Finset.mem_product, Finset.mem_range,
    and_assoc]

theorem setCells_clearRect (r : Rect) (bm : ℕ → ℕ → Bool) (w h : ℕ) :
    setCells (clearRect r bm) w h = setCells bm w h \ rectCells r := by
  ext c
  rw [Finset.mem_sdiff, mem_setCells, mem_setCells, mem_rectCells]
  unfold clearRect
  constructor
  · rintro ⟨h1, h2, h3⟩
    split at h3
    case isTrue => exact absurd h3 (by simp)
    case isFalse hcond => exact ⟨⟨h1, h2, h3⟩, by tauto⟩
  · rintro ⟨⟨h1, h2, h3⟩, hnot⟩
    refine ⟨h1, h2, ?_⟩
    rw [if_neg (by tauto)]
    exact h3

theorem findLargestRectangleFrom_isSome (bm : ℕ → ℕ → Bool) (w h x y : ℕ)
    (hb : bm y x = true) :
    ∃ r, findLargestRectangleFrom bm x y w h = some r := by
  unfold findLargestRectangleFrom
  rw [if_neg (by simp [hb])]
  exact ⟨_, rfl⟩

theorem scanStep_eq_none (bm : ℕ → ℕ → Bool) (w h : ℕ) (best : Option Rect)
    (c : ℕ × ℕ) :
    scanStep bm w h best c = none ↔ best = none ∧ bm c.1 c.2 = false := by
  unfold scanStep
  by_cases hb : bm c.1 c.2
  · rw [if_pos hb]
    obtain ⟨r, hr⟩ := findLargestRectangleFrom_isSome bm w h c.2 c.1 hb
    rw [hr]
    cases best with
    | none => simp [hb]
    | some b =>
      dsimp only
      constructor
      · intro hcontra
        split at hcontra <;> exact absurd hcontra (by simp)
      · rintro ⟨hcontra, -⟩
        exact absurd hcontra (by simp)
  · rw [if_neg hb]
    simp [Bool.eq_false_iff, hb]

theorem foldl_scanStep_none (bm : ℕ → ℕ → Bool) (w h : ℕ) :
    ∀ (l : List (ℕ × ℕ)) (init : Option Rect),
      l.foldl (scanStep bm w h) init = none ↔
        init = none ∧ ∀ c ∈ l, bm c.1 c.2 = false := by
  intro l
  induction l with
  | nil => intro init; simp
  | cons c t ih =>
    intro init
    rw [List.foldl_cons, ih, scanStep_eq_none]
    constructor
    · rintro ⟨⟨hin, hc⟩, hall⟩
      exact ⟨hin, by
        intro c2 hc2
        rcases List.mem_cons.mp hc2 with rfl | hm
        · exact hc
        · exact hall c2 hm⟩
    · rintro ⟨hin, hall⟩
      exact ⟨⟨hin, hall c (List.mem_cons_self _ _)⟩,
        fun c2 h2 => hall c2 (List.mem_cons_of_mem _ h2)⟩

theorem bestOfScan_eq_none (bm : ℕ → ℕ → Bool) (w h : ℕ) :
    bestOfScan bm w h = none ↔ setCells bm w h = ∅ := by
  unfold bestOfScan
  rw [foldl_scanStep_none]
  simp only [true_and]
  constructor
  · intro hall
    rw [Finset.eq_empty_iff_forall_not_mem]
    intro c hc
    rw [mem_setCells] at hc
    have := hall (c.2, c.1) (mem_rowMajor.mpr ⟨hc.2.1, hc.1⟩)
    rw [hc.2.2] at this
    exact absurd this (by simp)
  · intro hempty c hc
    rw [mem_rowMajor] at hc
    by_cases hbm : bm c.1 c.2
    · exfalso
      have : (c.2, c.1) ∈ setCells bm w h :=
        mem_setCells.mpr ⟨hc.2, hc.1, hbm⟩
      rw [hempty] at this
      exact absurd this (Finset.not_mem_empty _)
    · simpa using hbm

theorem foldl_scanStep_good (bm : ℕ → ℕ → Bool) (w h : ℕ) :
    ∀ (l : List (ℕ × ℕ)) (init : Option Rect),
      (∀ c ∈ l, c.1 < h ∧ c.2 < w) →
      (∀ r, init = some r → RectGood bm w h r) →
      ∀ r, l.foldl (scanStep bm w h) init = some r → RectGood bm w h r := by
  intro l
  induction l with
  | nil => intro init _ hi r hr; exact hi r hr
  | cons c t ih =>
    intro init hmem hi r hr
    rw [List.foldl_cons] at hr
    refine ih (scanStep bm w h init c)
      (fun c2 h2 => hmem c2 (List.mem_cons_of_mem _ h2)) ?_ r hr
    intro r2 hr2
    unfold scanStep at hr2
    by_cases hb : bm c.1 c.2
    · rw [if_pos hb] at hr2
      obtain ⟨rc, hrc, hgood, -, -⟩ := findLargestRectangleFrom_good bm w h
        c.2 c.1 hb (hmem c (List.mem_cons_self _ _)).2
        (hmem c (List.mem_cons_self _ _)).1
      rw [hrc] at hr2
      cases init with
      | none =>
        dsimp only at hr2
        have := Option.some.inj hr2
        rw [← this]
        exact hgood
      | some b =>
        dsimp only at hr2
        split at hr2
        · have := Option.some.inj hr2
          rw [← this]
          exact hgood
        · have := Option.some.inj hr2
          rw [← this]
          exact hi b rfl
    · rw [if_neg hb] at hr2
      exact hi r2 hr2

theorem bestOfScan_good (bm : ℕ → ℕ → Bool) (w h : ℕ) (r : Rect)
    (hr : bestOfScan bm w h = some r) : RectGood bm w h r :=
  foldl_scanStep_good bm w h (rowMajor w h) none
    (fun c hc => mem_rowMajor.mp hc) (by simp) r hr

/-! ### The greedy claiming loop -/

theorem rectCells_subset_setCells {bm : ℕ → ℕ → Bool} {w h : ℕ} {r : Rect}
    (hgood : RectGood bm w h r) : rectCells r ⊆ setCells bm w h := by
  obtain ⟨hx12, hxw, hy12, hyh, -, hcells⟩ := hgood
  intro c hc
  have hm := mem_rectCells.mp hc
  rw [mem_setCells]
  exact ⟨by omega, by omega, hcells c hc⟩

theorem clearRect_card_lt {bm : ℕ → ℕ → Bool} {w h : ℕ} {r : Rect}
    (hgood : RectGood bm w h r) :
    (setCells (clearRect r bm) w h).card < (setCells bm w h).card := by
  rw [setCells_clearRect]
  apply Finset.card_lt_card
  apply Finset.sdiff_ssubset (rectCells_subset_setCells hgood)
  exact ⟨(r.x1, r.y1),
    mem_rectCells.mpr ⟨⟨le_refl _, hgood.1⟩, le_refl _, hgood.2.2.1⟩⟩

theorem subset_rectUnion {rs : List Rect} {r : Rect} (h : r ∈ rs) :
    rectCells r ⊆ rectUnion rs := by
  induction rs with
  | nil => simp at h
  | cons a t ih =>
    rcases List.mem_cons.mp h with rfl | hm
    · exact Finset.subset_union_left
    · exact subset_trans (ih hm) Finset.subset_union_right

theorem greedyExtract_spec (w h : ℕ) :
    ∀ fuel (bm : ℕ → ℕ → Bool),
      (setCells bm w h).card < fuel →
      rectUnion (greedyExtract w h fuel bm) = setCells bm w h ∧
      List.Pairwise (fun r r2 => Disjoint (rectCells r) (rectCells r2))
        (greedyExtract w h fuel bm) ∧
      (greedyExtract w h fuel bm).length ≤ (setCells bm w h).card := by
  intro fuel
  induction fuel with
  | zero => intro bm hcard; omega
  | succ n ih =>
    intro bm hcard
    unfold greedyExtract
    cases hscan : bestOfScan bm w h with
    | none =>
      have hempty := (bestOfScan_eq_none bm w h).mp hscan
      refine ⟨?_, by simp, by simp⟩
      rw [hempty]
      rfl
    | some r =>
      have hgood := bestOfScan_good bm w h r hscan
      have hsub : rectCells r ⊆ setCells bm w h :=
        rectCells_subset_setCells hgood
      have hclear := setCells_clearRect r bm w h
      have hlt : (setCells (clearRect r bm) w h).card <
          (setCells bm w h).card := clearRect_card_lt hgood
      obtain ⟨ihu, ihp, ihl⟩ := ih (clearRect r bm) (by omega)
      refine ⟨?_, ?_, ?_⟩
      · show rectCells r ∪ rectUnion (greedyExtract w h n (clearRect r bm)) =
          setCells bm w h
        rw [ihu, hclear]
        exact Finset.union_sdiff_of_subset hsub
      · rw [List.pairwise_cons]
        refine ⟨?_, ihp⟩
        intro r2 hr2
        have hsubr2 : rectCells r2 ⊆ setCells bm w h \ rectCells r := by
          rw [← hclear, ← ihu]
          exact subset_rectUnion hr2
        exact Finset.disjoint_left.mpr
          (fun c hc1 hc2 => (Finset.mem_sdiff.mp (hsubr2 hc2)).2 hc1)
      · simp only [List.length_cons]
        omega

theorem setCells_componentBitmap (comp : List (ℕ × ℕ)) (w h : ℕ)
    (hb : ∀ c ∈ comp, c.1 < w ∧ c.2 < h) :
    setCells (componentBitmap comp) w h = comp.toFinset := by
  ext c
  rw [mem_setCells, List.mem_toFinset]
  unfold componentBitmap
  simp only [List.any_eq_true, decide_eq_true_eq]
  constructor
  · rintro ⟨h1, h2, p, hp, hpx, hpy⟩
    have hpc : p = c := Prod.ext hpx hpy
    rwa [← hpc]
  · intro hc
    exact ⟨(hb c hc).1, (hb c hc).2, ⟨c, hc, rfl, rfl⟩⟩

/-- Claim C2: for every region given as a list of in-bounds cells, the
rectangles returned by the box-merge decomposition are pairwise disjoint
and their union is exactly the region's cell set. -/
theorem c2_decomposition_exact_cover (comp : List (ℕ × ℕ)) (w h : ℕ)
    (hb : ∀ c ∈ comp, c.1 < w ∧ c.2 < h) :
    rectUnion (decomposeComponentIntoRectangles comp w h) = comp.toFinset ∧
    List.Pairwise (fun r r2 => Disjoint (rectCells r) (rectCells r2))
      (decomposeComponentIntoRectangles comp w h) := by
  unfold decomposeComponentIntoRectangles
  by_cases hemp : comp.isEmpty
  · rw [if_pos hemp]
    have hnil : comp = [] := List.isEmpty_iff.mp hemp
    subst hnil
    exact ⟨by simp [rectUnion], by simp⟩
  · rw [if_neg hemp]
    have hset := setCells_componentBitmap comp w h hb
    have hcard : (setCells (componentBitmap comp) w h).card < w * h + 1 := by
      have hss : setCells (componentBitmap comp) w h ⊆
          Finset.range w ×ˢ Finset.range h := Finset.filter_subset _ _
      have hle := Finset.card_le_card hss
      have hwh : (Finset.range w ×ˢ Finset.range h).card = w * h := by
        simp [Finset.card_product]
      omega
    obtain ⟨hu, hp, -⟩ :=
      greedyExtract_spec w h (w * h + 1) (componentBitmap comp) hcard
    rw [hset] at hu
    exact ⟨hu, hp⟩

theorem c2_decomposition_exact_cover_witness :
    rectUnion (decomposeComponentIntoRectangles [(0, 0), (0, 1), (1, 1)] 2 2)
      = ([(0, 0), (0, 1), (1, 1)] : List (ℕ × ℕ)).toFinset ∧
    List.Pairwise (fun r r2 => Disjoint (rectCells r) (rectCells r2))
      (decomposeComponentIntoRectangles [(0, 0), (0, 1), (1, 1)] 2 2) :=
  c2_decomposition_exact_cover [(0, 0), (0, 1), (1, 1)] 2 2 (by decide)

/-- Claim C10: the greedy extraction terminates — from any set in-bounds
cell `findLargestRectangleFrom` returns a rectangle of area at least 1
whose cells are all set, claiming the winning rectangle of a round
strictly decreases the number of set cells, and the loop produces at
most as many rectangles as there are set cells. -/
theorem c10_greedy_terminates (w h : ℕ) (bm : ℕ → ℕ → Bool) (x y : ℕ)
    (hx : x < w) (hy : y < h) (hb : bm y x = true) :
    (∃ r, findLargestRectangleFrom bm x y w h = some r ∧ 1 ≤ r.area ∧
      ∀ c ∈ rectCells r, bm c.2 c.1 = true) ∧
    (∀ r, bestOfScan bm w h = some r →
      (setCells (clearRect r bm) w h).card < (setCells bm w h).card) ∧
    (∀ fuel, (setCells bm w h).card < fuel →
      (greedyExtract w h fuel bm).length ≤ (setCells bm w h).card) := by
  refine ⟨?_, ?_, ?_⟩
  · obtain ⟨r, hr, hgood, -, -⟩ :=
      findLargestRectangleFrom_good bm w h x y hb hx hy
    obtain ⟨hx12, -, hy12, -, harea, hcells⟩ := hgood
    refine ⟨r, hr, ?_, hcells⟩
    rw [harea]
    have := Nat.mul_pos (by omega : 0 < r.x2 - r.x1)
      (by omega : 0 < r.y2 - r.y1)
    omega
  · intro r hr
    exact clearRect_card_lt (bestOfScan_good bm w h r hr)
  · intro fuel hfuel
    exact (greedyExtract_spec w h fuel bm hfuel).2.2

theorem c10_greedy_terminates_witness :
    ((∃ r, findLargestRectangleFrom
        (componentBitmap [(0, 0), (0, 1), (1, 1)]) 0 0 2 2 = some r ∧
      1 ≤ r.area ∧ ∀ c ∈ rectCells r,
        componentBitmap [(0, 0), (0, 1), (1, 1)] c.2 c.1 = true) ∧
    (∀ r, bestOfScan (componentBitmap [(0, 0), (0, 1), (1, 1)]) 2 2 = some r →
      (setCells (clearRect r (componentBitmap [(0, 0), (0, 1), (1, 1)])) 2 2).card <
        (setCells (componentBitmap [(0, 0), (0, 1), (1, 1)]) 2 2).card) ∧
    (∀ fuel, (setCells (componentBitmap [(0, 0), (0, 1), (1, 1)]) 2 2).card < fuel →
      (greedyExtract 2 2 fuel (componentBitmap [(0, 0), (0, 1), (1, 1)])).length ≤
        (setCells (componentBitmap [(0, 0), (0, 1), (1, 1)]) 2 2).card)) :=
  c10_greedy_terminates 2 2 (componentBitmap [(0, 0), (0, 1), (1, 1)]) 0 0
    (by decide) (by decide) (by decide)

/-! ### The selection rule of one greedy round -/

theorem foldl_scanStep_eq_keepMax (bm : ℕ → ℕ → Bool) (w h : ℕ) :
    ∀ (l : List (ℕ × ℕ)) (init : Option Rect),
      l.foldl (scanStep bm w h) init =
        (l.filterMap fun c => if bm c.1 c.2 then
          findLargestRectangleFrom bm c.2 c.1 w h else none).foldl
          keepMax init := by
  intro l
  induction l with
  | nil => intro init; rfl
  | cons c t ih =>
    intro init
    rw [List.foldl_cons, ih]
    by_cases hb : bm c.1 c.2
    · obtain ⟨rc, hrc⟩ := findLargestRectangleFrom_isSome bm w h c.2 c.1 hb
      rw [List.filterMap_cons, if_pos hb, hrc]
      rw [List.foldl_cons]
      congr 1
      unfold scanStep keepMax
      rw [if_pos hb, hrc]
    · rw [List.filterMap_cons, if_neg hb]
      congr 1
      unfold scanStep
      rw [if_neg hb]

theorem keepMax_leftmost :
    ∀ (t : List Rect) (b : Rect), ∃ r, t.foldl keepMax (some b) = some r ∧
      b.area ≤ r.area ∧ (∀ q ∈ t, q.area ≤ r.area) ∧
      (r = b ∨ ∃ pre post, t = pre ++ r :: post ∧ b.area < r.area ∧
        ∀ q ∈ pre, q.area < r.area) := by
  intro t
  induction t with
  | nil => exact fun b => ⟨b, rfl, le_refl _, by simp, Or.inl rfl⟩
  | cons c t2 ih =>
    intro b
    rw [List.foldl_cons]
    by_cases hc : b.area < c.area
    · have hkm : keepMax (some b) c = some c := by
        unfold keepMax
        dsimp only
        rw [if_pos hc]
      rw [hkm]
      obtain ⟨r, hr, hbr, hall, hdec⟩ := ih c
      refine ⟨r, hr, by omega, ?_, ?_⟩
      · intro q hq
        rcases List.mem_cons.mp hq with rfl | hm
        · exact hbr
        · exact hall q hm
      · rcases hdec with rfl | ⟨pre, post, hsplit, hlt, hpre⟩
        · exact Or.inr ⟨[], t2, rfl, hc, by simp⟩
        · exact Or.inr ⟨c :: pre, post, by rw [hsplit]; rfl, by omega,
            by
              intro q hq
              rcases List.mem_cons.mp hq with rfl | hm
              · omega
              · exact hpre q hm⟩
    · have hkm : keepMax (some b) c = some b := by
        unfold keepMax
        dsimp only
        rw [if_neg hc]
      rw [hkm]
      obtain ⟨r, hr, hbr, hall, hdec⟩ := ih b
      refine ⟨r, hr, hbr, ?_, ?_⟩
      · intro q hq
        rcases List.mem_cons.mp hq with rfl | hm
        · omega
        · exact hall q hm
      · rcases hdec with rfl | ⟨pre, post, hsplit, hlt, hpre⟩
        · exact Or.inl rfl
        · exact Or.inr ⟨c :: pre, post, by rw [hsplit]; rfl, hlt,
            by
              intro q hq
              rcases List.mem_cons.mp hq with rfl | hm
              · omega
              · exact hpre q hm⟩

/-- Claim C4: in every greedy round the accepted rectangle is the
globally largest-area candidate of the row-major scan over the still-set
cells (`candList`); on area ties the earliest candidate wins (every
earlier candidate has strictly smaller area); the winner's cells are
then cleared and the loop recurses on the remaining bitmap. -/
theorem c4_greedy_selection (bm : ℕ → ℕ → Bool) (w h : ℕ)
    (hne : candList bm w h ≠ []) :
    ∃ pre r post, candList bm w h = pre ++ r :: post ∧
      bestOfScan bm w h = some r ∧
      (∀ q ∈ candList bm w h, q.area ≤ r.area) ∧
      (∀ q ∈ pre, q.area < r.area) ∧
      ∀ fuel, greedyExtract w h (fuel + 1) bm =
        r :: greedyExtract w h fuel (clearRect r bm) := by
  have hfold : bestOfScan bm w h = (candList bm w h).foldl keepMax none :=
    foldl_scanStep_eq_keepMax bm w h (rowMajor w h) none
  cases hcand : candList bm w h with
  | nil => exact absurd hcand hne
  | cons c t =>
    rw [hcand, List.foldl_cons] at hfold
    have hkm : keepMax none c = some c := rfl
    rw [hkm] at hfold
    obtain ⟨r, hr, hbr, hall, hdec⟩ := keepMax_leftmost t c
    rw [hr] at hfold
    have hstep : ∀ fuel, greedyExtract w h (fuel + 1) bm =
        r :: greedyExtract w h fuel (clearRect r bm) := by
      intro fuel
      have he : greedyExtract w h (fuel + 1) bm = match bestOfScan bm w h with
        | none => []
        | some rr => rr :: greedyExtract w h fuel (clearRect rr bm) := rfl
      rw [he, hfold]
    rcases hdec with rfl | ⟨pre, post, hsplit, hlt, hpre⟩
    · refine ⟨[], r, t, by simp [hcand], hfold, ?_, by simp, hstep⟩
      intro q hq
      rcases List.mem_cons.mp hq with rfl | hm
      · exact le_refl _
      · exact hall q hm
    · refine ⟨c :: pre, r, post, by simp [hcand, hsplit], hfold, ?_, ?_, hstep⟩
      · intro q hq
        rcases List.mem_cons.mp hq with rfl | hm
        · exact hbr
        · exact hall q hm
      · intro q hq
        rcases List.mem_cons.mp hq with rfl | hm
        · omega
        · exact hpre q hm

theorem c4_greedy_selection_witness :
    ∃ pre r post,
      candList (componentBitmap [(0, 0), (0, 1), (1, 1)]) 2 2 =
        pre ++ r :: post ∧
      bestOfScan (componentBitmap [(0, 0), (0, 1), (1, 1)]) 2 2 = some r ∧
      (∀ q ∈ candList (componentBitmap [(0, 0), (0, 1), (1, 1)]) 2 2,
        q.area ≤ r.area) ∧
      (∀ q ∈ pre, q.area < r.area) ∧
      ∀ fuel, greedyExtract 2 2 (fuel + 1)
          (componentBitmap [(0, 0), (0, 1), (1, 1)]) =
        r :: greedyExtract 2 2 fuel
          (clearRect r (componentBitmap [(0, 0), (0, 1), (1, 1)])) :=
  c4_greedy_selection (componentBitmap [(0, 0), (0, 1), (1, 1)]) 2 2
    (by decide)

/-! ### The serializer's object structure -/

theorem filterMap_objects_pindex (cm : ℕ → ℕ → ℤ) (cfg : GeomConfig) :
    ∀ l : List ℕ,
      ((l.filterMap fun ci =>
        if 0 < (buildColorMesh cm cfg ci).verts.length then
          some (⟨ci, buildColorMesh cm cfg ci⟩ : ObjectData) else none).map
        ObjectData.colorIndex) =
      l.filter fun ci => 0 < (buildColorMesh cm cfg ci).verts.length := by
  intro l
  induction l with
  | nil => rfl
  | cons a t ih =>
    by_cases hp : 0 < (buildColorMesh cm cfg a).verts.length
    · simp [List.filterMap_cons, List.filter_cons, hp, ih]
    · simp [List.filterMap_cons, List.filter_cons, hp, ih]

theorem enumFrom_map_fst_add_two {α : Type} :
    ∀ (l : List α) (k : ℕ),
      ((List.enumFrom k l).map fun p => p.1 + 2) =
        List.range' (k + 2) l.length := by
  intro l
  induction l with
  | nil => intro k; rfl
  | cons a t ih =>
    intro k
    rw [show List.enumFrom k (a :: t) = (k, a) :: List.enumFrom (k + 1) t
      from rfl]
    rw [List.map_cons, ih (k + 1), List.length_cons, List.range'_succ]

theorem enumFrom_map_snd {α β : Type} (g : α → β) :
    ∀ (l : List α) (k : ℕ),
      ((List.enumFrom k l).map fun p => g p.2) = l.map g := by
  intro l
  induction l with
  | nil => intro k; rfl
  | cons a t ih =>
    intro k
    rw [show List.enumFrom k (a :: t) = (k, a) :: List.enumFrom (k + 1) t
      from rfl]
    rw [List.map_cons, ih (k + 1), List.map_cons]

/-- Claim C7: the serialized model emits one object per colour whose
mesh has at least one vertex; object ids are consecutive starting at 2,
each object carries `type="model"`, `pid=1` and `pindex` equal to its
colour index (whose mesh is non-empty and is the one stored); the build
section has exactly one item per object, so object count equals the
number of non-empty colour layers and build item count equals object
count. -/
theorem c7_serializer_objects (cm : ℕ → ℕ → ℤ) (cfg : GeomConfig) :
    ((xmlObjects (objectsData cm cfg)).map XmlObject.pindex =
      (List.range cfg.numColors).filter
        fun ci => 0 < (buildColorMesh cm cfg ci).verts.length) ∧
    ((xmlObjects (objectsData cm cfg)).map XmlObject.id =
      List.range' 2 (objectsData cm cfg).length) ∧
    (∀ o ∈ xmlObjects (objectsData cm cfg), o.typ = "model" ∧ o.pid = 1 ∧
      0 < (buildColorMesh cm cfg o.pindex).verts.length ∧
      o.verts = (buildColorMesh cm cfg o.pindex).verts ∧
      o.tris = (buildColorMesh cm cfg o.pindex).tris) ∧
    (buildItems (objectsData cm cfg) =
      (xmlObjects (objectsData cm cfg)).map XmlObject.id) ∧
    ((xmlObjects (objectsData cm cfg)).length =
      ((List.range cfg.numColors).filter
        fun ci => 0 < (buildColorMesh cm cfg ci).verts.length).length) := by
  have hmem : ∀ od ∈ objectsData cm cfg,
      0 < (buildColorMesh cm cfg od.colorIndex).verts.length ∧
      od.mesh = buildColorMesh cm cfg od.colorIndex := by
    intro od hod
    unfold objectsData at hod
    obtain ⟨ci, -, hci⟩ := List.mem_filterMap.mp hod
    by_cases hp : 0 < (buildColorMesh cm cfg ci).verts.length
    · rw [if_pos hp] at hci
      have hod2 := Option.some.inj hci
      rw [← hod2]
      exact ⟨hp, rfl⟩
    · rw [if_neg hp] at hci
      exact absurd hci (by simp)
  have hpin : (xmlObjects (objectsData cm cfg)).map XmlObject.pindex =
      (List.range cfg.numColors).filter
        fun ci => 0 < (buildColorMesh cm cfg ci).verts.length := by
    unfold xmlObjects
    rw [List.map_map]
    have hc : (XmlObject.pindex ∘ fun p : ℕ × ObjectData =>
        (⟨p.1 + 2, "model", 1, p.2.colorIndex, p.2.mesh.verts,
          p.2.mesh.tris⟩ : XmlObject)) =
        fun p : ℕ × ObjectData => p.2.colorIndex := rfl
    rw [hc, show (objectsData cm cfg).enum =
      List.enumFrom 0 (objectsData cm cfg) from rfl,
      enumFrom_map_snd ObjectData.colorIndex (objectsData cm cfg) 0]
    exact filterMap_objects_pindex cm cfg (List.range cfg.numColors)
  refine ⟨hpin, ?_, ?_, ?_, ?_⟩
  · unfold xmlObjects
    rw [List.map_map]
    have hc : (XmlObject.id ∘ fun p : ℕ × ObjectData =>
        (⟨p.1 + 2, "model", 1, p.2.colorIndex, p.2.mesh.verts,
          p.2.mesh.tris⟩ : XmlObject)) =
        fun p : ℕ × ObjectData => p.1 + 2 := rfl
    rw [hc, show (objectsData cm cfg).enum =
      List.enumFrom 0 (objectsData cm cfg) from rfl]
    exact enumFrom_map_fst_add_two (objectsData cm cfg) 0
  · intro o ho
    unfold xmlObjects at ho
    obtain ⟨p, hp, hpo⟩ := List.mem_map.mp ho
    have hsnd : p.2 ∈ objectsData cm cfg := by
      have := List.enum_map_snd (objectsData cm cfg)
      have hm : p.2 ∈ (objectsData cm cfg).enum.map Prod.snd :=
        List.mem_map_of_mem Prod.snd hp
      rwa [this] at hm
    obtain ⟨hpos, hmesh⟩ := hmem p.2 hsnd
    rw [← hpo]
    exact ⟨rfl, rfl, hpos, by rw [hmesh], by rw [hmesh]⟩
  · unfold xmlObjects buildItems
    rw [List.map_map]
    rfl
  · have hlen := congrArg List.length hpin
    rwa [List.length_map] at hlen

/-! ### Placement of the generated geometry (claim C5) -/

theorem greedyExtract_bounds (w h : ℕ) :
    ∀ fuel (bm : ℕ → ℕ → Bool) r, r ∈ greedyExtract w h fuel bm →
      r.x1 < r.x2 ∧ r.x2 ≤ w ∧ r.y1 < r.y2 ∧ r.y2 ≤ h := by
  intro fuel
  induction fuel with
  | zero => intro bm r hr; exact absurd hr (by simp [greedyExtract])
  | succ n ih =>
    intro bm r hr
    have he : greedyExtract w h (n + 1) bm = match bestOfScan bm w h with
      | none => []
      | some rr => rr :: greedyExtract w h n (clearRect rr bm) := rfl
    rw [he] at hr
    cases hscan : bestOfScan bm w h with
    | none =>
      rw [hscan] at hr
      exact absurd hr (by simp)
    | some rb =>
      rw [hscan] at hr
      dsimp only at hr
      rcases List.mem_cons.mp hr with rfl | hm
      · obtain ⟨h1, h2, h3, h4, -, -⟩ := bestOfScan_good bm w h r hscan
        exact ⟨h1, h2, h3, h4⟩
      · exact ih (clearRect rb bm) r hm

theorem decomposeComponentIntoRectangles_bounds
    (comp : List (ℕ × ℕ)) (w h : ℕ) (r : Rect)
    (hr : r ∈ decomposeComponentIntoRectangles comp w h) :
    r.x1 < r.x2 ∧ r.x2 ≤ w ∧ r.y1 < r.y2 ∧ r.y2 ≤ h := by
  unfold decomposeComponentIntoRectangles at hr
  split at hr
  · exact absurd hr (by simp)
  · exact greedyExtract_bounds w h (w * h + 1) (componentBitmap comp) r hr

theorem mergeAdjacentVoxels_bounds (cm : ℕ → ℕ → ℤ) (target : ℤ)
    (w h : ℕ) :
    ∀ r ∈ mergeAdjacentVoxels cm target w h,
      r.x1 < r.x2 ∧ r.x2 ≤ w ∧ r.y1 < r.y2 ∧ r.y2 ≤ h := by
  unfold mergeAdjacentVoxels
  suffices hgen : ∀ (l : List (ℕ × ℕ)) (st : (ℕ → ℕ → Bool) × List Rect),
      (∀ r ∈ st.2, r.x1 < r.x2 ∧ r.x2 ≤ w ∧ r.y1 < r.y2 ∧ r.y2 ≤ h) →
      ∀ r ∈ (l.foldl (fun (st : (ℕ → ℕ → Bool) × List Rect) c =>
        if st.1 c.1 c.2 = false ∧ cm c.1 c.2 = target then
          let r2 := bfsStep cm target w h (w * h + 1) [(c.2, c.1)]
            (setVisited st.1 c.2 c.1) []
          (r2.2, st.2 ++ decomposeComponentIntoRectangles r2.1 w h)
        else st) st).2,
        r.x1 < r.x2 ∧ r.x2 ≤ w ∧ r.y1 < r.y2 ∧ r.y2 ≤ h by
    exact fun r hr => hgen (rowMajor w h) ((fun _ _ => false), [])
      (by simp) r hr
  intro l
  induction l with
  | nil => exact fun st hst r hr => hst r hr
  | cons c t ih =>
    intro st hst r hr
    rw [List.foldl_cons] at hr
    refine ih _ ?_ r hr
    intro r2 hr2
    dsimp only at hr2
    split at hr2
    · rcases List.mem_append.mp hr2 with hm1 | hm2
      · exact hst r2 hm1
      · exact decomposeComponentIntoRectangles_bounds _ w h r2 hm2
    · exact hst r2 hr2

theorem boxCorners_z (x1 y1 z1 x2 y2 z2 : ℚ) (f : Bool) :
    ∀ c ∈ boxCorners x1 y1 z1 x2 y2 z2 f, c.2.2 = z1 ∨ c.2.2 = z2 := by
  intro c hc
  fin_cases hc <;> simp

theorem smoothedCorners_z (x1 y1 z1 x2 y2 z2 : ℚ) (f : Bool) :
    ∀ c ∈ smoothedCorners x1 y1 z1 x2 y2 z2 f, c.2.2 = z1 ∨ c.2.2 = z2 := by
  intro c hc
  fin_cases hc <;> simp

theorem boxCorners_xy (x1 y1 z1 x2 y2 z2 : ℚ) (f : Bool) :
    ∀ c ∈ boxCorners x1 y1 z1 x2 y2 z2 f,
      (c.1 = x1 ∨ c.1 = x2) ∧ (c.2.1 = y1 ∨ c.2.1 = y2) := by
  intro c hc
  fin_cases hc <;> cases f <;> simp

theorem addVoxelManifold_verts (s : Builder) (x1 y1 z1 x2 y2 z2 : ℚ)
    (ci : ℕ) (f : Bool) :
    (addVoxelManifold s x1 y1 z1 x2 y2 z2 ci f).verts =
      (pushVerts s (boxCorners x1 y1 z1 x2 y2 z2 f)).2.verts := by
  simp only [addVoxelManifold]

theorem addSmoothedVoxelManifold_verts (s : Builder) (x1 y1 z1 x2 y2 z2 : ℚ)
    (ci : ℕ) (f : Bool) :
    (addSmoothedVoxelManifold s x1 y1 z1 x2 y2 z2 ci f).verts =
      (pushVerts s (smoothedCorners x1 y1 z1 x2 y2 z2 f)).2.verts := by
  simp only [addSmoothedVoxelManifold]

theorem addVoxelManifold_keys (s : Builder) (x1 y1 z1 x2 y2 z2 : ℚ)
    (ci : ℕ) (f : Bool) :
    (addVoxelManifold s x1 y1 z1 x2 y2 z2 ci f).keys =
      (pushVerts s (boxCorners x1 y1 z1 x2 y2 z2 f)).2.keys := by
  simp only [addVoxelManifold]

theorem addSmoothedVoxelManifold_keys (s : Builder) (x1 y1 z1 x2 y2 z2 : ℚ)
    (ci : ℕ) (f : Bool) :
    (addSmoothedVoxelManifold s x1 y1 z1 x2 y2 z2 ci f).keys =
      (pushVerts s (smoothedCorners x1 y1 z1 x2 y2 z2 f)).2.keys := by
  simp only [addSmoothedVoxelManifold]

theorem pushVerts_headD (s : Builder) (hk : s.keys = []) (hv : s.verts = [])
    (c : Vec3) (cs : List Vec3) :
    (pushVerts s (c :: cs)).2.verts.headD (0, 0, 0) = c := by
  have hg : getOrCreateVertex s c.1 c.2.1 c.2.2 =
      (s.verts.length, ⟨s.verts ++ [(c.1, c.2.1, c.2.2)],
        s.keys ++ [(qkey3 c.1 c.2.1 c.2.2, s.verts.length)], s.tris⟩) :=
    getOrCreateVertex_fresh s c.1 c.2.1 c.2.2 (by rw [hk]; simp)
  show (pushVerts (getOrCreateVertex s c.1 c.2.1 c.2.2).2 cs).2.verts.headD
    (0, 0, 0) = c
  obtain ⟨t, ht, -, -⟩ := pushVerts_verts cs (getOrCreateVertex s c.1 c.2.1 c.2.2).2
  rw [ht, hg]
  show ((s.verts ++ [(c.1, c.2.1, c.2.2)]) ++ t).headD (0, 0, 0) = c
  rw [hv]
  rfl

theorem pushVerts_headD2 (s : Builder) (hk : s.keys = []) (hv : s.verts = [])
    (cs : List Vec3) (hne : cs ≠ []) :
    (pushVerts s cs).2.verts.headD (0, 0, 0) = cs.headD (0, 0, 0) := by
  cases cs with
  | nil => exact absurd rfl hne
  | cons c t => rw [pushVerts_headD s hk hv c t]; rfl

theorem headD_append_left {l t : List Vec3} (hl : l ≠ []) :
    (l ++ t).headD (0, 0, 0) = l.headD (0, 0, 0) := by
  cases l with
  | nil => exact absurd rfl hl
  | cons a u => rfl

theorem buildRegionStep_placed (cfg : GeomConfig) (ci : ℕ) (s : Builder)
    (r : Rect) (hbx0 : r.x1 ≤ r.x2) (hby0 : r.y1 ≤ r.y2)
    (hbx : r.x2 ≤ cfg.imgW) (hby : r.y2 ≤ cfg.imgH)
    (hs : ∀ v ∈ s.verts, VertexPlaced cfg ci v) :
    ∀ v ∈ (buildRegionStep cfg ci s r).verts, VertexPlaced cfg ci v := by
  intro v hv
  unfold buildRegionStep at hv
  dsimp only at hv
  split at hv
  case isTrue hsm =>
    rw [addSmoothedVoxelManifold_verts] at hv
    obtain ⟨t, ht, -, htm⟩ := pushVerts_verts _ s
    rw [ht] at hv
    rcases List.mem_append.mp hv with hm | hm
    · exact hs v hm
    · have hz := smoothedCorners_z _ _ 0 _ _ (cfg.colorHeights.getD ci 0)
        cfg.showOnFront v (htm v hm)
      refine ⟨hz, ?_⟩
      intro hfalse
      rw [hfalse] at hsm
      exact absurd hsm.1 (by simp)
  case isFalse =>
    rw [addVoxelManifold_verts] at hv
    obtain ⟨t, ht, -, htm⟩ := pushVerts_verts _ s
    rw [ht] at hv
    rcases List.mem_append.mp hv with hm | hm
    · exact hs v hm
    · have hz := boxCorners_z _ _ 0 _ _ (cfg.colorHeights.getD ci 0)
        cfg.showOnFront v (htm v hm)
      have hxy := boxCorners_xy _ _ 0 _ _ (cfg.colorHeights.getD ci 0)
        cfg.showOnFront v (htm v hm)
      refine ⟨hz, ?_⟩
      rintro -
      refine ⟨if v.1 = (r.x1 : ℚ) / (cfg.imgW : ℚ) * cfg.widthMM + offsetX cfg
        then r.x1 else r.x2,
        if v.2.1 = (r.y1 : ℚ) / (cfg.imgH : ℚ) * depthMM cfg + offsetY cfg
        then r.y1 else r.y2, ?_, ?_, ?_, ?_⟩
      · split
        · omega
        · exact hbx
      · split
        · omega
        · exact hby
      · split
        case isTrue he => exact he
        case isFalse he =>
          rcases hxy.1 with h1 | h1
          · exact absurd h1 he
          · exact h1
      · split
        case isTrue he => exact he
        case isFalse he =>
          rcases hxy.2 with h1 | h1
          · exact absurd h1 he
          · exact h1

theorem buildRegionStep_head (cfg : GeomConfig) (ci : ℕ) (s : Builder)
    (r : Rect) (hh : (s.verts.headD (0, 0, 0)).2.2 = 0)
    (hk : s.verts = [] → s.keys = []) :
    ((buildRegionStep cfg ci s r).verts.headD (0, 0, 0)).2.2 = 0 ∧
    ((buildRegionStep cfg ci s r).verts = [] →
      (buildRegionStep cfg ci s r).keys = []) := by
  unfold buildRegionStep
  dsimp only
  have hmain : ∀ (cs : List Vec3), cs ≠ [] → (cs.headD (0, 0, 0)).2.2 = 0 →
      (((pushVerts s cs).2.verts.headD (0, 0, 0)).2.2 = 0 ∧
        ((pushVerts s cs).2.verts = [] → (pushVerts s cs).2.keys = [])) := by
    intro cs hne hz
    obtain ⟨t, ht, -, -⟩ := pushVerts_verts cs s
    by_cases hv : s.verts = []
    · rw [pushVerts_headD2 s (hk hv) hv cs hne]
      refine ⟨hz, ?_⟩
      intro hcontra
      rw [ht, hv] at hcontra
      cases cs with
      | nil => exact absurd rfl hne
      | cons c u =>
        exfalso
        have hg := getOrCreateVertex_fresh s c.1 c.2.1 c.2.2
          (by rw [hk hv]; simp)
        have : (pushVerts s (c :: u)).2.verts = [] := by rw [ht, hv]; exact hcontra
        obtain ⟨t2, ht2, -, -⟩ :=
          pushVerts_verts u (getOrCreateVertex s c.1 c.2.1 c.2.2).2
        have hv2 : (pushVerts s (c :: u)).2.verts =
            (getOrCreateVertex s c.1 c.2.1 c.2.2).2.verts ++ t2 := ht2
        rw [hv2, hg] at this
        simp [hv] at this
    · rw [ht]
      refine ⟨?_, ?_⟩
      · rw [headD_append_left hv]
        exact hh
      · intro hcontra
        rw [List.append_eq_nil] at hcontra
        exact absurd hcontra.1 hv
  split
  · rw [addSmoothedVoxelManifold_verts, addSmoothedVoxelManifold_keys]
    exact hmain _ (by simp [smoothedCorners]) (by rfl)
  · rw [addVoxelManifold_verts, addVoxelManifold_keys]
    exact hmain _ (by simp [boxCorners]) (by rfl)

/-- Claim C5: in the (only) layering mode of the generator, every
colour's geometry starts its z-range at `baseZ = 0` — each vertex's z is
0 or the colour's layer height and the first vertex lies at z = 0, so
layers are never stacked — and the XY placement is the bed-centring
translation `offset = (125, 125) - modelSize/2`: `offsetX = 125 -
width/2`, `offsetY = 125 - depth/2`, and without smoothing every vertex
is a scaled grid corner plus that offset (see `VertexPlaced`). -/
theorem c5_basez_and_offset (cm : ℕ → ℕ → ℤ) (cfg : GeomConfig) (ci : ℕ) :
    (∀ v ∈ (buildColorMesh cm cfg ci).verts, VertexPlaced cfg ci v) ∧
    ((buildColorMesh cm cfg ci).verts.headD (0, 0, 0)).2.2 = 0 ∧
    offsetX cfg = 125 - cfg.widthMM / 2 ∧
    offsetY cfg = 125 - depthMM cfg / 2 := by
  have hb := mergeAdjacentVoxels_bounds cm (ci : ℤ) cfg.imgW cfg.imgH
  have hfold : ∀ (l : List Rect) (s : Builder),
      (∀ r ∈ l, r.x1 < r.x2 ∧ r.x2 ≤ cfg.imgW ∧ r.y1 < r.y2 ∧
        r.y2 ≤ cfg.imgH) →
      (∀ v ∈ s.verts, VertexPlaced cfg ci v) →
      (s.verts.headD (0, 0, 0)).2.2 = 0 →
      (s.verts = [] → s.keys = []) →
      (∀ v ∈ (l.foldl (buildRegionStep cfg ci) s).verts,
        VertexPlaced cfg ci v) ∧
      ((l.foldl (buildRegionStep cfg ci) s).verts.headD (0, 0, 0)).2.2 = 0 ∧
      ((l.foldl (buildRegionStep cfg ci) s).verts = [] →
        (l.foldl (buildRegionStep cfg ci) s).keys = []) := by
    intro l
    induction l with
    | nil => exact fun s _ h1 h2 h3 => ⟨h1, h2, h3⟩
    | cons r t ih =>
      intro s hl h1 h2 h3
      rw [List.foldl_cons]
      have hr := hl r (List.mem_cons_self _ _)
      have hstep1 := buildRegionStep_placed cfg ci s r (by omega) (by omega)
        hr.2.1 hr.2.2.2 h1
      have hstep2 := buildRegionStep_head cfg ci s r h2 h3
      exact ih _ (fun r2 hm => hl r2 (List.mem_cons_of_mem _ hm)) hstep1
        hstep2.1 hstep2.2
  obtain ⟨ha, hh, -⟩ := hfold
    (mergeAdjacentVoxels cm (ci : ℤ) cfg.imgW cfg.imgH) emptyBuilder
    (fun r hr => hb r hr) (by simp [emptyBuilder]) (by simp [emptyBuilder])
    (by simp [emptyBuilder])
  exact ⟨ha, hh, rfl, rfl⟩

theorem c5_basez_and_offset_witness :
    VertexPlaced cfgL 0 ((buildColorMesh cmL cfgL 0).verts.getD 0 (0, 0, 0)) ∧
    ((buildColorMesh cmL cfgL 0).verts.headD (0, 0, 0)).2.2 = 0 :=
  ⟨(c5_basez_and_offset cmL cfgL 0).1 _ (by with_unfolding_all decide),
   (c5_basez_and_offset cmL cfgL 0).2.1⟩

/-! ### Ear-clipping triangulation (claim C8) -/

theorem fanIndices_length (remaining : List ℕ) :
    (fanIndices remaining).length = 3 * (remaining.length - 2) := by
  unfold fanIndices
  rw [List.length_flatMap]
  have hmap : ∀ n : ℕ, (List.map (List.length ∘ fun j =>
      [remaining.getD 0 0, remaining.getD (j + 1) 0,
        remaining.getD (j + 2) 0]) (List.range n)).sum = 3 * n := by
    intro n
    induction n with
    | zero => rfl
    | succ m ih =>
      rw [List.range_succ, List.map_append, List.sum_append, ih]
      simp
      omega
  exact hmap _

theorem fanIndices_mem (remaining : List ℕ) (h3 : 3 ≤ remaining.length) :
    ∀ x ∈ fanIndices remaining, x ∈ remaining := by
  intro x hx
  unfold fanIndices at hx
  obtain ⟨j, hj, hxm⟩ := List.mem_flatMap.mp hx
  rw [List.mem_range] at hj
  have h0 : (0 : ℕ) < remaining.length := by omega
  have h1 : j + 1 < remaining.length := by omega
  have h2 : j + 2 < remaining.length := by omega
  simp only [List.mem_cons, List.mem_singleton, List.not_mem_nil,
    or_false] at hxm
  rcases hxm with rfl | rfl | rfl
  · rw [List.getD_eq_getElem _ _ h0]
    exact List.getElem_mem _
  · rw [List.getD_eq_getElem _ _ h1]
    exact List.getElem_mem _
  · rw [List.getD_eq_getElem _ _ h2]
    exact List.getElem_mem _

theorem earLoop_spec (points : List Point) :
    ∀ fuel (remaining acc : List ℕ), 3 ≤ remaining.length →
      remaining.length ≤ fuel →
      (earLoop points fuel remaining acc).length =
        acc.length + 3 * (remaining.length - 2) ∧
      ∀ x ∈ earLoop points fuel remaining acc, x ∈ acc ∨ x ∈ remaining := by
  intro fuel
  induction fuel with
  | zero => intro remaining acc h3 hle; omega
  | succ n ih =>
    intro remaining acc h3 hle
    unfold earLoop
    split
    case isTrue hgt =>
      cases hfind : findEar points remaining with
      | some i =>
        dsimp only
        have hi : i < remaining.length := by
          have hmem := List.mem_of_find?_eq_some hfind
          rwa [List.mem_range] at hmem
        have hlen : (remaining.eraseIdx i).length = remaining.length - 1 := by
          rw [List.length_eraseIdx, if_pos hi]
        have hmod1 : (i + remaining.length - 1) % remaining.length <
            remaining.length := Nat.mod_lt _ (by omega)
        have hmod2 : (i + 1) % remaining.length < remaining.length :=
          Nat.mod_lt _ (by omega)
        obtain ⟨ihl, ihm⟩ := ih (remaining.eraseIdx i)
          (acc ++ [remaining.getD
              ((i + remaining.length - 1) % remaining.length) 0,
            remaining.getD i 0,
            remaining.getD ((i + 1) % remaining.length) 0])
          (by omega) (by omega)
        constructor
        · rw [ihl, hlen, List.length_append]
          simp only [List.length_cons, List.length_nil]
          omega
        · intro x hx
          rcases ihm x hx with hm | hm
          · rcases List.mem_append.mp hm with hm2 | hm2
            · exact Or.inl hm2
            · right
              simp only [List.mem_cons, List.mem_singleton,
                List.not_mem_nil, or_false] at hm2
              rcases hm2 with rfl | rfl | rfl
              · rw [List.getD_eq_getElem _ _ hmod1]
                exact List.getElem_mem _
              · rw [List.getD_eq_getElem _ _ hi]
                exact List.getElem_mem _
              · rw [List.getD_eq_getElem _ _ hmod2]
                exact List.getElem_mem _
          · exact Or.inr ((List.eraseIdx_sublist remaining i).subset hm)
      | none =>
        dsimp only
        constructor
        · rw [List.length_append, fanIndices_length]
        · intro x hx
          rcases List.mem_append.mp hx with hm | hm
          · exact Or.inl hm
          · exact Or.inr (fanIndices_mem remaining h3 x hm)
    case isFalse hng =>
      have hlen3 : remaining.length = 3 := by omega
      rw [if_pos hlen3]
      have h0 : (0 : ℕ) < remaining.length := by omega
      have h1 : (1 : ℕ) < remaining.length := by omega
      have h2 : (2 : ℕ) < remaining.length := by omega
      constructor
      · rw [List.length_append, hlen3]
        simp only [List.length_cons, List.length_nil]
      · intro x hx
        rcases List.mem_append.mp hx with hm | hm
        · exact Or.inl hm
        · right
          simp only [List.mem_cons, List.mem_singleton, List.not_mem_nil,
            or_false] at hm
          rcases hm with rfl | rfl | rfl
          · rw [List.getD_eq_getElem _ _ h0]
            exact List.getElem_mem _
          · rw [List.getD_eq_getElem _ _ h1]
            exact List.getElem_mem _
          · rw [List.getD_eq_getElem _ _ h2]
            exact List.getElem_mem _

/-- Claim C8: ear-clipping triangulation is total and complete — for
every polygon of at least 3 points it returns a full triangle-index
list, `3 * (n - 2)` indices each below `n` (the fan fallback, rather
than an error, covers the no-ear case). -/
theorem c8_triangulation_total (points : List Point)
    (h3 : 3 ≤ points.length) :
    (triangulatePolygon points).length = 3 * (points.length - 2) ∧
    ∀ i ∈ triangulatePolygon points, i < points.length := by
  unfold triangulatePolygon
  dsimp only
  rw [if_neg (by omega : ¬points.length < 3)]
  by_cases he3 : points.length = 3
  · rw [if_pos he3, he3]
    exact ⟨rfl, by intro i hi; simp at hi; omega⟩
  · rw [if_neg he3]
    by_cases he4 : points.length = 4
    · rw [if_pos he4, he4]
      exact ⟨rfl, by intro i hi; simp at hi; omega⟩
    · rw [if_neg he4]
      obtain ⟨hl, hm⟩ := earLoop_spec points points.length
        (List.range points.length) [] (by simp; omega) (by simp)
      constructor
      · rw [hl]
        simp
      · intro i hi
        rcases hm i hi with hm2 | hm2
        · exact absurd hm2 (by simp)
        · exact List.mem_range.mp hm2

theorem c8_triangulation_total_witness :
    (triangulatePolygon
      [((0 : ℚ), (0 : ℚ)), (2, 0), (2, 1), (1, 1), (1, 2), (0, 2)]).length =
      3 * ([((0 : ℚ), (0 : ℚ)), (2, 0), (2, 1), (1, 1), (1, 2),
        (0, 2)].length - 2) ∧
    ∀ i ∈ triangulatePolygon
      [((0 : ℚ), (0 : ℚ)), (2, 0), (2, 1), (1, 1), (1, 2), (0, 2)],
      i < [((0 : ℚ), (0 : ℚ)), (2, 0), (2, 1), (1, 1), (1, 2),
        (0, 2)].length :=
  c8_triangulation_total
    [((0 : ℚ), (0 : ℚ)), (2, 0), (2, 1), (1, 1), (1, 2), (0, 2)]
    (by decide)

/-- Claim C9, counterexample: corner values equal within `1e-5` do not
always yield the first corner — with `iso = 1/2`,
`val1 = 1/2 + 1.4e-5` and `val2 = 1/2 + 0.5e-5` the second guard fires
first and the second corner's position is returned. -/
theorem c9_counterexample :
    |(1 / 2 + 7 / 500000 : ℚ) - (1 / 2 + 1 / 200000)| < 1 / 100000 ∧
    interpolateVertex ⟨0, 0, 0⟩ ⟨1, 0, 0⟩ (1 / 2 + 7 / 500000)
      (1 / 2 + 1 / 200000) (1 / 2) ≠ ⟨0, 0, 0⟩ := by
  with_unfolding_all decide

end ImgTo3mf
